import Mathlib

/-!
Verification development for the rust-graph-db engine: a shallow embedding of
the record types (`Graphid`, `Vertex`, `Edge`, `GraphPath`), the RocksDB-backed
storage engine and its batched transaction, the match/return executor pipeline,
and the graph algorithms (Dijkstra shortest path and variable-length
expansion), together with theorems about the specification's claims.

Machine integers (`u16`, `u48`, `u64`) are modelled as `Nat` with explicit
bounds or reductions where the Rust code performs casts or masks.  The RocksDB
byte-string key space `l:/c:/v:/e:/o:/i:` is modelled by the inductive `Key`
(the colon-separated formats are injective per kind) and stored values by the
inductive `Val`; the store itself is an association list in which `put`
replaces any previous binding, mirroring RocksDB point writes.  JSON property
values are modelled by the inductive `Json`, with finite `f64` numbers
embedded as exact rationals (f64 rounding is outside the embedding).
-/

namespace GraphDB

/-- Association-list lookup used to model `HashMap::get`: first binding wins. -/
def alookup {α β : Type} [DecidableEq α] (l : List (α × β)) (a : α) : Option β :=
  (l.find? (fun p => decide (p.1 = a))).map (·.2)

/-- Association-list insert used to model `HashMap::insert`: the new binding
replaces any previous binding of the same key. -/
def ainsert {α β : Type} [DecidableEq α] (l : List (α × β)) (a : α) (b : β) :
    List (α × β) :=
  (a, b) :: l.filter (fun p => decide (p.1 ≠ a))

theorem find?_filter_of_imp {α : Type} (l : List α) (pred q : α → Bool)
    (himp : ∀ x, pred x = true → q x = true) :
    (l.filter q).find? pred = l.find? pred := by
  induction l with
  | nil => rfl
  | cons x l ih =>
    by_cases hq : q x = true
    · rw [List.filter_cons_of_pos hq]
      by_cases hp : pred x = true
      · rw [List.find?_cons_of_pos _ hp, List.find?_cons_of_pos _ hp]
      · rw [List.find?_cons_of_neg _ (by simpa using hp),
          List.find?_cons_of_neg _ (by simpa using hp)]
        exact ih
    · have hp : ¬pred x = true := fun hc => hq (himp x hc)
      rw [List.filter_cons_of_neg (by simpa using hq),
        List.find?_cons_of_neg _ (by simpa using hp)]
      exact ih

theorem alookup_ainsert_self {α β : Type} [DecidableEq α]
    (l : List (α × β)) (a : α) (b : β) : alookup (ainsert l a b) a = some b := by
  simp [alookup, ainsert]

theorem alookup_ainsert_ne {α β : Type} [DecidableEq α]
    (l : List (α × β)) (a a' : α) (b : β) (h : a' ≠ a) :
    alookup (ainsert l a b) a' = alookup l a' := by
  unfold alookup ainsert
  rw [List.find?_cons_of_neg _ (by simpa using fun hc => h hc.symm)]
  rw [find?_filter_of_imp]
  intro x hx
  simp only [decide_eq_true_eq] at hx ⊢
  rw [hx]
  exact h

/-- Errors of `Graphid` construction (types/graphid.rs `GraphidError`). -/
inductive GraphidError where
  | locidOutOfRange (n : Nat)
  | invalidValue (n : Nat)
deriving DecidableEq

/-- A 64-bit graph identifier: high 16 bits label ordinal, low 48 bits local
ordinal (types/graphid.rs `Graphid(u64)`).  `raw` carries the `u64` value. -/
structure Graphid where
  raw : Nat
deriving DecidableEq

/-- Maximum local ordinal, `2^48 - 1` (types/graphid.rs `MAX_LOCID`). -/
def Graphid.MAX_LOCID : Nat := 0x0000FFFFFFFFFFFF

/-- Maximum label ordinal, `u16::MAX` (types/graphid.rs `MAX_LABID`). -/
def Graphid.MAX_LABID : Nat := 65535

/-- Constructor `Graphid::new(labid, locid)`: rejects a local ordinal above 48
bits, otherwise packs `(labid << 48) | locid`.  `labid` is a `u16` in the
source, hence the `% 2^16` reduction. -/
def Graphid.new (labid locid : Nat) : Except GraphidError Graphid :=
  if Graphid.MAX_LOCID < locid then .error (.locidOutOfRange locid)
  else .ok ⟨(labid % 65536) * 2 ^ 48 + locid⟩

/-- Unchecked constructor `Graphid::from_raw(value)`; the argument is a `u64`,
hence the `% 2^64` reduction. -/
def Graphid.from_raw (value : Nat) : Graphid := ⟨value % 2 ^ 64⟩

/-- Accessor `Graphid::as_raw`. -/
def Graphid.as_raw (id : Graphid) : Nat := id.raw

/-- Accessor `Graphid::labid`: `(raw >> 48) as u16`. -/
def Graphid.labid (id : Graphid) : Nat := id.raw / 2 ^ 48 % 65536

/-- Accessor `Graphid::locid`: `raw & MAX_LOCID`. -/
def Graphid.locid (id : Graphid) : Nat := id.raw % 2 ^ 48

/-- Display form `"{labid}.{locid}"` (types/graphid.rs `impl fmt::Display`). -/
def Graphid.display (id : Graphid) : String :=
  toString id.labid ++ "." ++ toString id.locid

/-- Recursive JSON property values (`serde_json::Value`); `i64` numbers are
`num`, finite `f64` numbers are embedded as exact rationals in `fnum` (f64
rounding itself is outside the embedding). -/
inductive Json where
  | null
  | bool (b : Bool)
  | num (n : Int)
  | fnum (q : ℚ)
  | str (s : String)
  | arr (items : List Json)
  | obj (fields : List (String × Json))

/-- Structural equality of JSON values, modelling `serde_json::Value`'s
`PartialEq` (object maps are ordered with unique keys in serde, so field-list
equality is faithful for values produced by the engine). -/
def Json.beq : Json → Json → Bool
  | .null, .null => true
  | .bool a, .bool b => a == b
  | .num a, .num b => a == b
  | .fnum a, .fnum b => a == b
  | .str a, .str b => a == b
  | .arr (a :: as'), .arr (b :: bs') => Json.beq a b && Json.beq (.arr as') (.arr bs')
  | .arr [], .arr [] => true
  | .obj ((ka, va) :: as'), .obj ((kb, vb) :: bs') =>
    ka == kb && Json.beq va vb && Json.beq (.obj as') (.obj bs')
  | .obj [], .obj [] => true
  | _, _ => false

/-- Field access `properties.get(key)` on a JSON value: `None` unless the value
is an object containing the key. -/
def Json.get : Json → String → Option Json
  | .obj fields, key => alookup fields key
  | _, _ => none

/-- A graph vertex `(id, label, properties)` (types/vertex.rs `Vertex`). -/
structure Vertex where
  id : Graphid
  label : String
  properties : Json

/-- Constructor `Vertex::new`. -/
def Vertex.new (id : Graphid) (label : String) (properties : Json) : Vertex :=
  ⟨id, label, properties⟩

/-- A directed graph edge `(id, start, end, label, properties)`
(types/edge.rs `Edge`); the `end` field is written `«end»`. -/
structure Edge where
  id : Graphid
  start : Graphid
  «end» : Graphid
  label : String
  properties : Json

/-- Constructor `Edge::new`. -/
def Edge.new (id start «end» : Graphid) (label : String) (properties : Json) :
    Edge :=
  ⟨id, start, «end», label, properties⟩

/-- Direction reversal `Edge::reverse`: swaps `start` and `end`, keeps the
identifier, label and properties. -/
def Edge.reverse (e : Edge) : Edge :=
  ⟨e.id, e.«end», e.start, e.label, e.properties⟩

/-- Errors of `GraphPath` validation (types/path.rs `PathError`). -/
inductive PathError where
  | emptyPath
  | countMismatch (vertices edges : Nat)
  | discontinuity (pos : Nat) (edge_start edge_end path_end : Graphid)

/-- A path: alternating vertices and edges (types/path.rs `GraphPath`). -/
structure GraphPath where
  vertices : List Vertex
  edges : List Edge

/-- Continuity loop of `GraphPath::validate`: edge `i` must run from
`vertices[i]` to `vertices[i+1]`; the first violation reports its position.
The fall-through arm is only reachable when there are fewer vertices than the
count invariant requires, which `validate` has already ruled out. -/
def GraphPath.checkContinuity : List Vertex → List Edge → Nat →
    Except PathError Unit
  | v1 :: v2 :: vs, e :: es, i =>
    if e.start ≠ v1.id then
      .error (.discontinuity i e.start e.«end» v1.id)
    else if e.«end» ≠ v2.id then
      .error (.discontinuity i e.start e.«end» v2.id)
    else GraphPath.checkContinuity (v2 :: vs) es (i + 1)
  | _, _, _ => .ok ()

/-- Invariant check `GraphPath::validate`: non-empty vertex list, one more
vertex than edges, and continuity of every edge. -/
def GraphPath.validate (p : GraphPath) : Except PathError Unit :=
  if p.vertices.isEmpty then .error .emptyPath
  else if p.vertices.length ≠ p.edges.length + 1 then
    .error (.countMismatch p.vertices.length p.edges.length)
  else GraphPath.checkContinuity p.vertices p.edges 0

/-- Checked constructor `GraphPath::from_parts`. -/
def GraphPath.from_parts (vertices : List Vertex) (edges : List Edge) :
    Except PathError GraphPath :=
  match (GraphPath.mk vertices edges).validate with
  | .error e => .error e
  | .ok _ => .ok ⟨vertices, edges⟩

/-- Path reversal `GraphPath::reverse`: vertex list reversed, edge list
reversed with each edge's direction flipped. -/
def GraphPath.reverse (p : GraphPath) : GraphPath :=
  ⟨p.vertices.reverse, (p.edges.reverse).map Edge.reverse⟩

/-- The alternation and count invariants of a path: non-empty vertex list, one
more vertex than edges, and each edge `j` runs from `vertices[j]` to
`vertices[j+1]`. -/
def GraphPath.Invariants (vertices : List Vertex) (edges : List Edge) : Prop :=
  vertices ≠ [] ∧ vertices.length = edges.length + 1 ∧
    ∀ j e v1 v2, edges[j]? = some e → vertices[j]? = some v1 →
      vertices[j + 1]? = some v2 → e.start = v1.id ∧ e.«end» = v2.id

theorem checkContinuity_ok_iff :
    ∀ (vs : List Vertex) (es : List Edge) (i : Nat),
      (GraphPath.checkContinuity vs es i = .ok () ↔
        ∀ j e v1 v2, es[j]? = some e → vs[j]? = some v1 →
          vs[j + 1]? = some v2 → e.start = v1.id ∧ e.«end» = v2.id) := by
  intro vs es
  induction es generalizing vs with
  | nil =>
    intro i
    constructor
    · intro _ j e v1 v2 he
      simp at he
    · intro _
      match vs with
      | [] => rfl
      | [v] => rfl
      | v1 :: v2 :: rest => rfl
  | cons e es ih =>
    intro i
    match vs with
    | [] =>
      constructor
      · intro _ j e' v1 v2 _ hv
        simp at hv
      · intro _
        rfl
    | [v1] =>
      constructor
      · intro _ j e' w1 w2 _ _ hv
        match j with
        | 0 => simp at hv
        | j + 1 => simp at hv
      · intro _
        rfl
    | v1 :: v2 :: rest =>
      simp only [GraphPath.checkContinuity]
      by_cases hs : e.start = v1.id
      · by_cases he : e.«end» = v2.id
        · simp only [hs, he, ne_eq, not_true_eq_false, if_false, ite_false]
          rw [ih (v2 :: rest) (i + 1)]
          constructor
          · intro hrec j e' w1 w2 hje hjv hjv2
            match j with
            | 0 =>
              simp only [List.getElem?_cons_zero, Option.some_inj] at hje hjv
              simp only [List.getElem?_cons_succ, List.getElem?_cons_zero,
                Option.some_inj] at hjv2
              subst hje hjv hjv2
              exact ⟨hs, he⟩
            | j + 1 =>
              refine hrec j e' w1 w2 ?_ ?_ ?_
              · simpa using hje
              · simpa using hjv
              · simpa using hjv2
          · intro hall j e' w1 w2 hje hjv hjv2
            refine hall (j + 1) e' w1 w2 ?_ ?_ ?_
            · simpa using hje
            · simpa using hjv
            · simpa using hjv2
        · simp only [hs, he, ne_eq, not_true_eq_false, if_false,
            not_false_eq_true, if_true]
          constructor
          · intro hcon
            simp at hcon
          · intro hall
            have := hall 0 e v1 v2 (by simp) (by simp) (by simp)
            exact absurd this.2 he
      · simp only [hs, ne_eq, not_false_eq_true, if_true]
        constructor
        · intro hcon
          simp at hcon
        · intro hall
          have := hall 0 e v1 v2 (by simp) (by simp) (by simp)
          exact absurd this.1 hs

theorem validate_ok_iff (p : GraphPath) :
    p.validate = .ok () ↔ GraphPath.Invariants p.vertices p.edges := by
  unfold GraphPath.validate GraphPath.Invariants
  by_cases hne : p.vertices.isEmpty
  · simp only [hne, if_true]
    constructor
    · intro h
      simp at h
    · intro h
      exact absurd (List.isEmpty_iff.mp hne) h.1
  · rw [if_neg hne]
    by_cases hlen : p.vertices.length = p.edges.length + 1
    · rw [if_neg (by simpa using hlen)]
      rw [checkContinuity_ok_iff p.vertices p.edges 0]
      constructor
      · intro hall
        exact ⟨by simpa using hne, hlen, hall⟩
      · intro hinv
        exact hinv.2.2
    · rw [if_pos (by simpa using hlen)]
      constructor
      · intro h
        simp at h
      · intro h
        exact absurd h.2.1 hlen

theorem edge_reverse_reverse (e : Edge) : e.reverse.reverse = e := rfl

/-- C9: `GraphPath::from_parts` (equivalently `validate`) succeeds exactly when
the vertex list is non-empty, there is one more vertex than edges, and each
edge `j` runs from `vertices[j]` to `vertices[j+1]`; on success it returns the
path assembled from exactly those parts, and reversing any path twice is the
identity. -/
theorem path_from_parts_iff_and_reverse_involutive :
    (∀ (vs : List Vertex) (es : List Edge),
      (∃ p, GraphPath.from_parts vs es = .ok p) ↔ GraphPath.Invariants vs es) ∧
    (∀ (vs : List Vertex) (es : List Edge) (p : GraphPath),
      GraphPath.from_parts vs es = .ok p → p = ⟨vs, es⟩) ∧
    ∀ p : GraphPath, p.reverse.reverse = p := by
  have hok : ∀ (vs : List Vertex) (es : List Edge) (p : GraphPath),
      GraphPath.from_parts vs es = .ok p →
        p = ⟨vs, es⟩ ∧ GraphPath.Invariants vs es := by
    intro vs es p hp
    unfold GraphPath.from_parts at hp
    cases hval : (GraphPath.mk vs es).validate with
    | error e =>
      rw [hval] at hp
      simp at hp
    | ok u =>
      rw [hval] at hp
      cases u
      refine ⟨by simpa using hp.symm, ?_⟩
      exact (validate_ok_iff ⟨vs, es⟩).mp hval
  refine ⟨?_, fun vs es p hp => (hok vs es p hp).1, ?_⟩
  · intro vs es
    constructor
    · intro ⟨p, hp⟩
      exact (hok vs es p hp).2
    · intro hinv
      have hval := (validate_ok_iff ⟨vs, es⟩).mpr hinv
      refine ⟨⟨vs, es⟩, ?_⟩
      unfold GraphPath.from_parts
      rw [hval]
  · intro p
    cases p with
    | mk vs es =>
      simp only [GraphPath.reverse, List.map_reverse, List.reverse_reverse,
        List.map_map]
      congr 1
      have hcomp : (Edge.reverse ∘ Edge.reverse) = id := funext edge_reverse_reverse
      rw [hcomp, List.map_id]

/-- Storage operation errors (storage/error.rs `StorageError`); the I/O and
RocksDB error cases carry no information relevant to the embedding and are
represented by `databaseError`. -/
inductive StorageError where
  | vertexNotFound (s : String)
  | edgeNotFound (s : String)
  | vertexHasEdges (s : String) (n : Nat)
  | labelNotFound (s : String)
  | invalidLabelId (n : Nat)
  | counterOverflow (s : String)
  | databaseError (s : String)
  | serializationError (s : String)
  | transactionError (s : String)
  | invalidState (s : String)

/-- The RocksDB key space (rocksdb_store.rs header comment): label catalog
`l:{graph}:{name}`, counter `c:{graph}:{label}`, vertex
`v:{graph}:{labid}:{locid}`, edge `e:{graph}:{labid}:{locid}`, outgoing index
`o:{graph}:{src_raw}:{edge_raw}` and incoming index
`i:{graph}:{dst_raw}:{edge_raw}`.  The distinct single-letter kind glyphs make
the formatted byte strings injective per kind, so the keys are modelled
structurally. -/
inductive Key where
  | label (ns name : String)
  | counter (ns name : String)
  | vertex (ns : String) (labid locid : Nat)
  | edge (ns : String) (labid locid : Nat)
  | outgoing (ns : String) (src eid : Nat)
  | incoming (ns : String) (dst eid : Nat)
deriving DecidableEq

/-- Stored values: a little-endian `u16` label ordinal, a little-endian `u64`
counter, a JSON-serialized vertex or edge record, or the empty value of an
adjacency index entry.  Serialization round-trips through serde, so records
are stored directly. -/
inductive Val where
  | labelId (n : Nat)
  | counterVal (n : Nat)
  | vertexRec (v : Vertex)
  | edgeRec (e : Edge)
  | unit

/-- The key-value store: an association list over `Key` in which a put replaces
any previous binding, modelling the latest committed state of the RocksDB
instance. -/
def Store : Type := List (Key × Val)

/-- Point read `db.get(key)`. -/
def Store.get (db : Store) (k : Key) : Option Val :=
  ((db : List (Key × Val)).find? (fun p => decide (p.1 = k))).map (·.2)

/-- Point write `db.put(key, value)`: replaces any previous binding. -/
def Store.put (db : Store) (k : Key) (v : Val) : Store :=
  (k, v) :: (db : List (Key × Val)).filter (fun p => decide (p.1 ≠ k))

/-- Point delete `db.delete(key)`. -/
def Store.del (db : Store) (k : Key) : Store :=
  (db : List (Key × Val)).filter (fun p => decide (p.1 ≠ k))

theorem Store.get_put_self (db : Store) (k : Key) (v : Val) :
    (db.put k v).get k = some v := by
  simp [Store.get, Store.put]

theorem Store.get_put_ne (db : Store) (k k' : Key) (v : Val) (h : k' ≠ k) :
    (db.put k v).get k' = db.get k' := by
  unfold Store.get Store.put
  rw [List.find?_cons_of_neg _ (by simpa using fun hc => h hc.symm)]
  rw [find?_filter_of_imp]
  intro x hx
  simp only [decide_eq_true_eq] at hx ⊢
  rw [hx]
  exact h

theorem Store.get_del_self (db : Store) (k : Key) :
    (db.del k).get k = none := by
  unfold Store.get Store.del
  rw [List.find?_eq_none.mpr]
  · rfl
  · intro p hp
    have := List.of_mem_filter hp
    simp only [decide_eq_true_eq] at this
    simp [this]

theorem Store.get_del_ne (db : Store) (k k' : Key) (h : k' ≠ k) :
    (db.del k).get k' = db.get k' := by
  unfold Store.get Store.del
  rw [find?_filter_of_imp]
  intro x hx
  simp only [decide_eq_true_eq] at hx ⊢
  rw [hx]
  exact h

/-- The RocksDB-backed storage engine (rocksdb_store.rs `RocksDbStorage`):
the shared database handle, the namespace, the in-memory label catalog caches
and the next label ordinal. -/
structure RocksDbStorage where
  db : Store
  graph_name : String
  label_cache : List (String × Nat)
  reverse_label_cache : List (Nat × String)
  next_label_id : Nat

/-- One step of `RocksDbStorage::load_labels`: record a catalog entry in both
caches and track the maximum ordinal seen. -/
def loadLabelsStep (ns : String) (acc : (List (String × Nat)) × (List (Nat × String)) × Nat)
    (entry : Key × Val) : (List (String × Nat)) × (List (Nat × String)) × Nat :=
  match entry with
  | (Key.label ns' name, Val.labelId labelId) =>
    if ns' = ns then
      (ainsert acc.1 name labelId, ainsert acc.2.1 labelId name,
        if acc.2.2 < labelId then labelId else acc.2.2)
    else acc
  | _ => acc

/-- Catalog load on open, `RocksDbStorage::load_labels`: prefix-scan the
`l:{ns}:` keys, fill both caches and set `next_label_id` to
`max(existing) + 1`. -/
def RocksDbStorage.load_labels (db : Store) (ns : String) :
    (List (String × Nat)) × (List (Nat × String)) × Nat :=
  (db : List (Key × Val)).foldl (loadLabelsStep ns) ([], [], 0)

/-- Constructor `RocksDbStorage::new(path, graph_name)`: empty caches seeded by
`load_labels`, so `next_label_id = max(existing) + 1`. -/
def RocksDbStorage.new (db : Store) (graph_name : String) : RocksDbStorage :=
  match RocksDbStorage.load_labels db graph_name with
  | (cache, rcache, maxId) => ⟨db, graph_name, cache, rcache, maxId + 1⟩

/-- Catalog read-or-allocate, `RocksDbStorage::get_or_create_label`: a cache
hit returns the cached ordinal; otherwise the next ordinal is allocated
(`checked_add` on the `u16` counter fails with `CounterOverflow`), persisted
under the label key, and both caches updated. -/
def RocksDbStorage.get_or_create_label (s : RocksDbStorage) (label : String) :
    Except StorageError (Nat × RocksDbStorage) :=
  match alookup s.label_cache label with
  | some labelId => .ok (labelId, s)
  | none =>
    if s.next_label_id + 1 > 65535 then .error (.counterOverflow label)
    else
      let labelId := s.next_label_id
      .ok (labelId,
        { s with
            db := s.db.put (Key.label s.graph_name label) (Val.labelId labelId)
            label_cache := ainsert s.label_cache label labelId
            reverse_label_cache := ainsert s.reverse_label_cache labelId label
            next_label_id := labelId + 1 })

/-- Catalog read-only lookup, `RocksDbStorage::get_label_id`: cache first, then
the label key on disk, failing with `LabelNotFound` when the label was never
created.  The cache backfill performed by the source on a disk hit is a
performance detail with no observable effect and is not threaded through. -/
def RocksDbStorage.get_label_id (s : RocksDbStorage) (label : String) :
    Except StorageError Nat :=
  match alookup s.label_cache label with
  | some labelId => .ok labelId
  | none =>
    match s.db.get (Key.label s.graph_name label) with
    | some (Val.labelId labelId) => .ok labelId
    | some _ => .error (.serializationError "label value")
    | none => .error (.labelNotFound label)

/-- Per-label counter bump, `RocksDbStorage::next_local_id`: read the counter
key (0 when absent), increment, reject values beyond `MAX_LOCID` with
`CounterOverflow`, persist the new value and return it. -/
def RocksDbStorage.next_local_id (s : RocksDbStorage) (label : String) :
    Except StorageError (Nat × RocksDbStorage) :=
  let current :=
    match s.db.get (Key.counter s.graph_name label) with
    | some (Val.counterVal n) => n
    | _ => 0
  let next := current + 1
  if Graphid.MAX_LOCID < next then .error (.counterOverflow label)
  else
    .ok (next,
      { s with db := s.db.put (Key.counter s.graph_name label) (Val.counterVal next) })

/-- Record read `RocksDbStorage::get_vertex`. -/
def RocksDbStorage.get_vertex (s : RocksDbStorage) (id : Graphid) :
    Except StorageError (Option Vertex) :=
  match s.db.get (Key.vertex s.graph_name id.labid id.locid) with
  | some (Val.vertexRec v) => .ok (some v)
  | some _ => .error (.serializationError "vertex value")
  | none => .ok none

/-- Record read `RocksDbStorage::get_edge`. -/
def RocksDbStorage.get_edge (s : RocksDbStorage) (id : Graphid) :
    Except StorageError (Option Edge) :=
  match s.db.get (Key.edge s.graph_name id.labid id.locid) with
  | some (Val.edgeRec e) => .ok (some e)
  | some _ => .error (.serializationError "edge value")
  | none => .ok none

/-- Record creation `RocksDbStorage::create_vertex`: allocate the label ordinal
and next local ordinal, pack the identifier and write the record. -/
def RocksDbStorage.create_vertex (s : RocksDbStorage) (label : String)
    (properties : Json) : Except StorageError (Vertex × RocksDbStorage) := do
  let (label_id, s) ← s.get_or_create_label label
  let (locid, s) ← s.next_local_id label
  let id ← (Graphid.new label_id locid).mapError
    (fun _ => StorageError.invalidState "locid out of range")
  let vertex := Vertex.new id label properties
  let db := s.db.put (Key.vertex s.graph_name label_id locid) (Val.vertexRec vertex)
  .ok (vertex, { s with db := db })

/-- Record creation `RocksDbStorage::create_edge`: allocate identifiers, write
the edge record and both adjacency index entries. -/
def RocksDbStorage.create_edge (s : RocksDbStorage) (label : String)
    (start «end» : Graphid) (properties : Json) :
    Except StorageError (Edge × RocksDbStorage) := do
  let (label_id, s) ← s.get_or_create_label label
  let (locid, s) ← s.next_local_id label
  let id ← (Graphid.new label_id locid).mapError
    (fun _ => StorageError.invalidState "locid out of range")
  let edge := Edge.new id start «end» label properties
  let db := s.db.put (Key.edge s.graph_name label_id locid) (Val.edgeRec edge)
  let db := db.put (Key.outgoing s.graph_name start.as_raw id.as_raw) Val.unit
  let db := db.put (Key.incoming s.graph_name «end».as_raw id.as_raw) Val.unit
  .ok (edge, { s with db := db })

/-- Adjacency scan `RocksDbStorage::get_outgoing_edges`: walk the
`o:{ns}:{vid_raw}:` index entries, parse the edge identifier from each key and
fetch the edge record, skipping entries whose record is gone. -/
def RocksDbStorage.get_outgoing_edges (s : RocksDbStorage) (vid : Graphid) :
    Except StorageError (List Edge) :=
  (s.db : List (Key × Val)).foldlM
    (fun acc entry =>
      match entry.1 with
      | Key.outgoing ns src eid =>
        if ns = s.graph_name ∧ src = vid.as_raw then do
          match ← s.get_edge (Graphid.from_raw eid) with
          | some edge => .ok (acc ++ [edge])
          | none => .ok acc
        else .ok acc
      | _ => .ok acc) []

/-- Adjacency scan `RocksDbStorage::get_incoming_edges`: the incoming-index
mirror of `get_outgoing_edges`. -/
def RocksDbStorage.get_incoming_edges (s : RocksDbStorage) (vid : Graphid) :
    Except StorageError (List Edge) :=
  (s.db : List (Key × Val)).foldlM
    (fun acc entry =>
      match entry.1 with
      | Key.incoming ns dst eid =>
        if ns = s.graph_name ∧ dst = vid.as_raw then do
          match ← s.get_edge (Graphid.from_raw eid) with
          | some edge => .ok (acc ++ [edge])
          | none => .ok acc
        else .ok acc
      | _ => .ok acc) []

/-- Guarded deletion `RocksDbStorage::delete_vertex`: counts incident edges
via both adjacency scans, fails with `VertexHasEdges(total)` when any exist,
otherwise removes the vertex record. -/
def RocksDbStorage.delete_vertex (s : RocksDbStorage) (id : Graphid) :
    Except StorageError RocksDbStorage := do
  let outgoing ← s.get_outgoing_edges id
  let incoming ← s.get_incoming_edges id
  let total_edges := outgoing.length + incoming.length
  if total_edges > 0 then
    .error (.vertexHasEdges id.display total_edges)
  else
    .ok { s with db := s.db.del (Key.vertex s.graph_name id.labid id.locid) }

/-- Deletion `RocksDbStorage::delete_edge`: reads the edge to recover its
endpoints (failing with `EdgeNotFound` when absent), then removes the record
and both adjacency index entries. -/
def RocksDbStorage.delete_edge (s : RocksDbStorage) (id : Graphid) :
    Except StorageError RocksDbStorage := do
  let edgeOpt ← s.get_edge id
  match edgeOpt with
  | none => .error (.edgeNotFound id.display)
  | some edge =>
    let db := s.db.del (Key.edge s.graph_name id.labid id.locid)
    let db := db.del (Key.outgoing s.graph_name edge.start.as_raw id.as_raw)
    let db := db.del (Key.incoming s.graph_name edge.«end».as_raw id.as_raw)
    .ok { s with db := db }

/-- Label scan `RocksDbStorage::scan_vertices`: resolve the label ordinal
(failing with `LabelNotFound` for an unknown label) and collect every vertex
record under the `v:{ns}:{labid}:` key family. -/
def RocksDbStorage.scan_vertices (s : RocksDbStorage) (label : String) :
    Except StorageError (List Vertex) := do
  let label_id ← s.get_label_id label
  (s.db : List (Key × Val)).foldlM
    (fun acc entry =>
      match entry with
      | (Key.vertex ns labid _, v) =>
        if ns = s.graph_name ∧ labid = label_id then
          match v with
          | Val.vertexRec vertex => .ok (acc ++ [vertex])
          | _ => .error (.serializationError "vertex value")
        else .ok acc
      | _ => .ok acc) []

/-- A batched write operation (transaction.rs `WriteOp`). -/
inductive WriteOp where
  | put (key : Key) (value : Val)
  | delete (key : Key)

/-- The key a write operation touches. -/
def WriteOp.key : WriteOp → Key
  | .put k _ => k
  | .delete k => k

/-- The RocksDB transaction (transaction.rs `RocksDbTransaction`): the shared
database handle (reads observe committed state only), the namespace, the
ordered operation batch, the pending record lists, the per-transaction label
and counter caches, the transaction-local next label ordinal, and the terminal
flags. -/
structure RocksDbTransaction where
  db : Store
  graph_name : String
  operations : List WriteOp
  pending_vertices : List Vertex
  pending_edges : List Edge
  label_cache : List (String × Nat)
  next_label_id : Nat
  counter_cache : List (String × Nat)
  committed : Bool
  rolled_back : Bool

/-- Constructor `RocksDbTransaction::new`: empty batch and caches, and a
transaction-local `next_label_id` that starts at 1. -/
def RocksDbTransaction.new (db : Store) (graph_name : String) :
    RocksDbTransaction :=
  ⟨db, graph_name, [], [], [], [], 1, [], false, false⟩

/-- State guard `RocksDbTransaction::check_state`: a committed or rolled-back
handle is terminal. -/
def RocksDbTransaction.check_state (tx : RocksDbTransaction) :
    Except StorageError Unit :=
  if tx.committed then .error (.transactionError "Transaction already committed")
  else if tx.rolled_back then
    .error (.transactionError "Transaction already rolled back")
  else .ok ()

/-- Stage a put (`RocksDbTransaction::put`). -/
def RocksDbTransaction.putOp (tx : RocksDbTransaction) (k : Key) (v : Val) :
    RocksDbTransaction :=
  { tx with operations := tx.operations ++ [WriteOp.put k v] }

/-- Stage a delete (`RocksDbTransaction::delete`). -/
def RocksDbTransaction.deleteOp (tx : RocksDbTransaction) (k : Key) :
    RocksDbTransaction :=
  { tx with operations := tx.operations ++ [WriteOp.delete k] }

/-- Transaction-local catalog read-or-allocate,
`RocksDbTransaction::get_or_create_label`: consult the transaction cache, then
the committed label key; when the name is new, assign the transaction-local
`next_label_id` (which starts at 1 and never consults the persisted maximum),
stage the catalog write and cache the assignment. -/
def RocksDbTransaction.get_or_create_label (tx : RocksDbTransaction)
    (label : String) : Except StorageError (Nat × RocksDbTransaction) :=
  match alookup tx.label_cache label with
  | some label_id => .ok (label_id, tx)
  | none =>
    match tx.db.get (Key.label tx.graph_name label) with
    | some (Val.labelId label_id) =>
      .ok (label_id, { tx with label_cache := ainsert tx.label_cache label label_id })
    | some _ => .error (.serializationError "label value")
    | none =>
      let label_id := tx.next_label_id
      if label_id + 1 > 65535 then .error (.counterOverflow label)
      else
        let tx := tx.putOp (Key.label tx.graph_name label) (Val.labelId label_id)
        .ok (label_id,
          { tx with
              label_cache := ainsert tx.label_cache label label_id
              next_label_id := label_id + 1 })

/-- Transaction-local counter bump, `RocksDbTransaction::next_local_id`: the
cached value when present, otherwise the committed counter key (0 when
absent), incremented with the `MAX_LOCID` overflow check and cached. -/
def RocksDbTransaction.next_local_id (tx : RocksDbTransaction)
    (label : String) : Except StorageError (Nat × RocksDbTransaction) :=
  match alookup tx.counter_cache label with
  | some current =>
    let next := current + 1
    if Graphid.MAX_LOCID < next then .error (.counterOverflow label)
    else .ok (next, { tx with counter_cache := ainsert tx.counter_cache label next })
  | none =>
    let current :=
      match tx.db.get (Key.counter tx.graph_name label) with
      | some (Val.counterVal n) => n
      | _ => 0
    let next := current + 1
    if Graphid.MAX_LOCID < next then .error (.counterOverflow label)
    else .ok (next, { tx with counter_cache := ainsert tx.counter_cache label next })

/-- Committed-state record read `RocksDbTransaction::get_vertex` (staged writes
are not visible). -/
def RocksDbTransaction.get_vertex (tx : RocksDbTransaction) (id : Graphid) :
    Except StorageError (Option Vertex) :=
  match tx.db.get (Key.vertex tx.graph_name id.labid id.locid) with
  | some (Val.vertexRec v) => .ok (some v)
  | some _ => .error (.serializationError "vertex value")
  | none => .ok none

/-- Committed-state record read `RocksDbTransaction::get_edge`. -/
def RocksDbTransaction.get_edge (tx : RocksDbTransaction) (id : Graphid) :
    Except StorageError (Option Edge) :=
  match tx.db.get (Key.edge tx.graph_name id.labid id.locid) with
  | some (Val.edgeRec e) => .ok (some e)
  | some _ => .error (.serializationError "edge value")
  | none => .ok none

/-- Staged vertex creation `RocksDbTransaction::create_vertex`. -/
def RocksDbTransaction.create_vertex (tx : RocksDbTransaction) (label : String)
    (properties : Json) : Except StorageError (Vertex × RocksDbTransaction) := do
  let _ ← tx.check_state
  let (label_id, tx) ← tx.get_or_create_label label
  let (locid, tx) ← tx.next_local_id label
  let id ← (Graphid.new label_id locid).mapError
    (fun _ => StorageError.invalidState "locid out of range")
  let vertex := Vertex.new id label properties
  let tx := tx.putOp (Key.vertex tx.graph_name label_id locid) (Val.vertexRec vertex)
  .ok (vertex, { tx with pending_vertices := tx.pending_vertices ++ [vertex] })

/-- Staged edge creation `RocksDbTransaction::create_edge`: stages the record
plus both adjacency index entries. -/
def RocksDbTransaction.create_edge (tx : RocksDbTransaction) (label : String)
    (start «end» : Graphid) (properties : Json) :
    Except StorageError (Edge × RocksDbTransaction) := do
  let _ ← tx.check_state
  let (label_id, tx) ← tx.get_or_create_label label
  let (locid, tx) ← tx.next_local_id label
  let id ← (Graphid.new label_id locid).mapError
    (fun _ => StorageError.invalidState "locid out of range")
  let edge := Edge.new id start «end» label properties
  let tx := tx.putOp (Key.edge tx.graph_name label_id locid) (Val.edgeRec edge)
  let tx := tx.putOp (Key.outgoing tx.graph_name start.as_raw id.as_raw) Val.unit
  let tx := tx.putOp (Key.incoming tx.graph_name «end».as_raw id.as_raw) Val.unit
  .ok (edge, { tx with pending_edges := tx.pending_edges ++ [edge] })

/-- Staged vertex deletion `RocksDbTransaction::delete_vertex`: stages the
record delete unconditionally (no incident-edge check at this layer). -/
def RocksDbTransaction.delete_vertex (tx : RocksDbTransaction) (id : Graphid) :
    Except StorageError RocksDbTransaction := do
  let _ ← tx.check_state
  .ok (tx.deleteOp (Key.vertex tx.graph_name id.labid id.locid))

/-- Staged edge deletion `RocksDbTransaction::delete_edge`: reads the edge
from the committed state to recover its endpoints; when the committed record
is absent the call succeeds having staged nothing. -/
def RocksDbTransaction.delete_edge (tx : RocksDbTransaction) (id : Graphid) :
    Except StorageError RocksDbTransaction := do
  let _ ← tx.check_state
  match tx.db.get (Key.edge tx.graph_name id.labid id.locid) with
  | some (Val.edgeRec edge) =>
    let tx := tx.deleteOp (Key.edge tx.graph_name id.labid id.locid)
    let tx := tx.deleteOp (Key.outgoing tx.graph_name edge.start.as_raw id.as_raw)
    .ok (tx.deleteOp (Key.incoming tx.graph_name edge.«end».as_raw id.as_raw))
  | some _ => .error (.serializationError "edge value")
  | none => .ok tx

/-- Application of one staged operation to the store. -/
def applyWriteOp (db : Store) (op : WriteOp) : Store :=
  match op with
  | .put k v => db.put k v
  | .delete k => db.del k

/-- Commit `RocksDbTransaction::commit`: assemble one batch holding the final
per-label counter values followed by every staged operation in order, apply it
atomically to the store, and mark the handle committed.  The new committed
store is returned alongside the terminal handle. -/
def RocksDbTransaction.commit (tx : RocksDbTransaction) :
    Except StorageError (RocksDbTransaction × Store) := do
  let _ ← tx.check_state
  let db := tx.counter_cache.foldl
    (fun d p => d.put (Key.counter tx.graph_name p.1) (Val.counterVal p.2)) tx.db
  let db := tx.operations.foldl applyWriteOp db
  .ok ({ tx with committed := true }, db)

/-- Rollback `RocksDbTransaction::rollback`: clears the staged operations and
marks the handle terminal; the committed store is not touched (the handle's
`db` view is unchanged). -/
def RocksDbTransaction.rollback (tx : RocksDbTransaction) :
    Except StorageError RocksDbTransaction := do
  let _ ← tx.check_state
  .ok { tx with operations := [], rolled_back := true }

/-- The last staged operation touching a key, if any. -/
def lastWrite : List WriteOp → Key → Option WriteOp
  | [], _ => none
  | op :: ops, k =>
    match lastWrite ops k with
    | some o => some o
    | none => if op.key = k then some op else none

/-- The value observable at a key after a commit: the last staged operation on
the key wins; otherwise a cached counter value for this namespace's counter
keys; otherwise the pre-commit committed state. -/
def commitSpec (tx : RocksDbTransaction) (k : Key) : Option Val :=
  match lastWrite tx.operations k with
  | some (.put _ v) => some v
  | some (.delete _) => none
  | none =>
    match k with
    | Key.counter ns label =>
      if ns = tx.graph_name then
        match alookup tx.counter_cache label with
        | some c => some (Val.counterVal c)
        | none => tx.db.get k
      else tx.db.get k
    | _ => tx.db.get k

theorem get_foldl_applyWriteOp (ops : List WriteOp) :
    ∀ (db : Store) (k : Key),
      (ops.foldl applyWriteOp db).get k =
        match lastWrite ops k with
        | some (.put _ v) => some v
        | some (.delete _) => none
        | none => db.get k := by
  induction ops with
  | nil => intro db k; rfl
  | cons op ops ih =>
    intro db k
    rw [List.foldl_cons, ih]
    cases hlast : lastWrite ops k with
    | some o =>
      simp only [lastWrite, hlast]
      cases o <;> rfl
    | none =>
      simp only [lastWrite, hlast]
      by_cases hk : op.key = k
      · rw [if_pos hk]
        cases op with
        | put k' v =>
          simp only [WriteOp.key] at hk
          subst hk
          simp [applyWriteOp, Store.get_put_self]
        | delete k' =>
          simp only [WriteOp.key] at hk
          subst hk
          simp [applyWriteOp, Store.get_del_self]
      · rw [if_neg hk]
        cases op with
        | put k' v =>
          simp only [WriteOp.key] at hk
          exact Store.get_put_ne db k' k v (fun hc => hk hc.symm)
        | delete k' =>
          simp only [WriteOp.key] at hk
          exact Store.get_del_ne db k' k (fun hc => hk hc.symm)

/-- The value observable at a key after writing the cached counter values of a
namespace into the store. -/
def countersGet (ns : String) (cc : List (String × Nat)) (db : Store) :
    Key → Option Val
  | Key.counter ns' label =>
    if ns' = ns then
      match alookup cc label with
      | some c => some (Val.counterVal c)
      | none => db.get (Key.counter ns' label)
    else db.get (Key.counter ns' label)
  | k => db.get k

theorem get_foldl_counters (ns : String) (cc : List (String × Nat))
    (hnodup : (cc.map Prod.fst).Nodup) :
    ∀ (db : Store) (k : Key),
      (cc.foldl (fun d p => d.put (Key.counter ns p.1) (Val.counterVal p.2)) db).get k =
        countersGet ns cc db k := by
  induction cc with
  | nil =>
    intro db k
    cases k <;> simp [countersGet, alookup]
  | cons p cc ih =>
    intro db k
    have hnodup' : (cc.map Prod.fst).Nodup := (List.nodup_cons.mp hnodup).2
    have hnotin : p.1 ∉ cc.map Prod.fst := (List.nodup_cons.mp hnodup).1
    rw [List.foldl_cons, ih hnodup']
    cases k with
    | counter ns' label =>
      simp only [countersGet]
      by_cases hns : ns' = ns
      · subst hns
        rw [if_pos rfl, if_pos rfl]
        by_cases hl : label = p.1
        · subst hl
          have hnone : alookup cc p.1 = none := by
            unfold alookup
            rw [List.find?_eq_none.mpr]
            · rfl
            · intro q hq
              simp only [decide_eq_true_eq]
              intro hc
              exact hnotin (hc ▸ List.mem_map_of_mem Prod.fst hq)
          rw [hnone]
          have hsome : alookup (p :: cc) p.1 = some p.2 := by
            simp [alookup]
          rw [hsome, Store.get_put_self]
        · have hskip : alookup (p :: cc) label = alookup cc label := by
            unfold alookup
            rw [List.find?_cons_of_neg _ (by simpa using fun hc => hl hc.symm)]
          rw [hskip]
          cases halook : alookup cc label with
          | some c => rfl
          | none =>
            exact Store.get_put_ne db (Key.counter ns' p.1) (Key.counter ns' label)
              (Val.counterVal p.2) (by simpa using hl)
      · rw [if_neg hns, if_neg hns]
        exact Store.get_put_ne db (Key.counter ns p.1) (Key.counter ns' label)
          (Val.counterVal p.2) (by simp [hns])
    | label a b =>
      simp only [countersGet]
      exact Store.get_put_ne db _ _ _ (by simp)
    | vertex a b c =>
      simp only [countersGet]
      exact Store.get_put_ne db _ _ _ (by simp)
    | edge a b c =>
      simp only [countersGet]
      exact Store.get_put_ne db _ _ _ (by simp)
    | outgoing a b c =>
      simp only [countersGet]
      exact Store.get_put_ne db _ _ _ (by simp)
    | incoming a b c =>
      simp only [countersGet]
      exact Store.get_put_ne db _ _ _ (by simp)

/-- C2: for a live transaction handle, `rollback()` discards the staged batch
and touches no store — the handle's committed-state view `db` is unchanged, so
no staged put, delete or counter reservation is observable — while `commit()`
succeeds and produces a store in which every key reads back exactly the batch
result: the last staged operation on the key if any, otherwise the reserved
final counter value for this namespace's cached labels, otherwise the
unchanged pre-commit value.  The counter caches produced by the engine have
distinct keys, stated here as the `Nodup` hypothesis. -/
theorem tx_rollback_commit_observable (tx : RocksDbTransaction)
    (hc : tx.committed = false) (hr : tx.rolled_back = false)
    (hnodup : (tx.counter_cache.map Prod.fst).Nodup) :
    tx.rollback = .ok { tx with operations := [], rolled_back := true } ∧
    ∃ db', tx.commit = .ok ({ tx with committed := true }, db') ∧
      ∀ k, db'.get k = commitSpec tx k := by
  have hstate : tx.check_state = .ok () := by
    unfold RocksDbTransaction.check_state
    rw [if_neg (by simp [hc]), if_neg (by simp [hr])]
  constructor
  · unfold RocksDbTransaction.rollback
    rw [hstate]
    rfl
  · refine ⟨tx.operations.foldl applyWriteOp
      (tx.counter_cache.foldl
        (fun d p => d.put (Key.counter tx.graph_name p.1) (Val.counterVal p.2))
        tx.db), ?_, ?_⟩
    · unfold RocksDbTransaction.commit
      rw [hstate]
      rfl
    · intro k
      rw [get_foldl_applyWriteOp, get_foldl_counters tx.graph_name tx.counter_cache hnodup]
      unfold commitSpec countersGet
      cases lastWrite tx.operations k with
      | some o => cases o <;> rfl
      | none => cases k <;> rfl

/-- Witness for C2 at a concrete transaction: a handle staging one put, one
delete and one counter reservation, where after commit the put and the counter
are observable and the deleted key reads back empty. -/
theorem tx_rollback_commit_observable_witness :
    (RocksDbTransaction.mk [(Key.vertex "g" 1 7, Val.unit)] "g"
        [WriteOp.put (Key.vertex "g" 1 1) Val.unit,
         WriteOp.delete (Key.vertex "g" 1 7)]
        [] [] [] 1 [("Person", 1)] false false).rollback =
      .ok { (RocksDbTransaction.mk [(Key.vertex "g" 1 7, Val.unit)] "g"
        [WriteOp.put (Key.vertex "g" 1 1) Val.unit,
         WriteOp.delete (Key.vertex "g" 1 7)]
        [] [] [] 1 [("Person", 1)] false false) with
          operations := [], rolled_back := true } ∧
    ∃ db', (RocksDbTransaction.mk [(Key.vertex "g" 1 7, Val.unit)] "g"
        [WriteOp.put (Key.vertex "g" 1 1) Val.unit,
         WriteOp.delete (Key.vertex "g" 1 7)]
        [] [] [] 1 [("Person", 1)] false false).commit =
      .ok ({ (RocksDbTransaction.mk [(Key.vertex "g" 1 7, Val.unit)] "g"
        [WriteOp.put (Key.vertex "g" 1 1) Val.unit,
         WriteOp.delete (Key.vertex "g" 1 7)]
        [] [] [] 1 [("Person", 1)] false false) with committed := true }, db') ∧
      ∀ k, db'.get k = commitSpec (RocksDbTransaction.mk
        [(Key.vertex "g" 1 7, Val.unit)] "g"
        [WriteOp.put (Key.vertex "g" 1 1) Val.unit,
         WriteOp.delete (Key.vertex "g" 1 7)]
        [] [] [] 1 [("Person", 1)] false false) k :=
  tx_rollback_commit_observable _ rfl rfl (by simp)

/-- C3: the storage engine's `delete_vertex(v)` succeeds exactly when both
adjacency scans come back empty; when any incident edge exists it fails with
`VertexHasEdges(n)` where `n` is the total outgoing-plus-incoming count, and
nothing is removed from the store (the edge check precedes the only write). -/
theorem delete_vertex_succeeds_iff (s : RocksDbStorage) (id : Graphid)
    (out inc : List Edge)
    (hout : s.get_outgoing_edges id = .ok out)
    (hinc : s.get_incoming_edges id = .ok inc) :
    ((∃ s', s.delete_vertex id = .ok s') ↔ (out = [] ∧ inc = [])) ∧
    (out = [] ∧ inc = [] →
      s.delete_vertex id =
        .ok { s with db := s.db.del (Key.vertex s.graph_name id.labid id.locid) }) ∧
    ((out ≠ [] ∨ inc ≠ []) →
      s.delete_vertex id =
        .error (.vertexHasEdges id.display (out.length + inc.length))) := by
  have hdel : s.delete_vertex id =
      if out.length + inc.length > 0 then
        .error (.vertexHasEdges id.display (out.length + inc.length))
      else
        .ok { s with db := s.db.del (Key.vertex s.graph_name id.labid id.locid) } := by
    unfold RocksDbStorage.delete_vertex
    rw [hout]
    simp only [Except.bind, bind]
    rw [hinc]
  by_cases hzero : out.length + inc.length > 0
  · rw [hdel, if_pos hzero]
    refine ⟨?_, ?_, fun _ => rfl⟩
    · constructor
      · intro ⟨s', hs'⟩
        simp at hs'
      · intro ⟨h1, h2⟩
        subst h1
        subst h2
        simp at hzero
    · intro ⟨h1, h2⟩
      subst h1
      subst h2
      simp at hzero
  · have hout0 : out = [] := by
      cases out with
      | nil => rfl
      | cons a l => simp at hzero
    have hinc0 : inc = [] := by
      cases inc with
      | nil => rfl
      | cons a l => subst hout0; simp at hzero
    subst hout0
    subst hinc0
    rw [hdel]
    refine ⟨?_, fun _ => rfl, ?_⟩
    · simp
    · intro hcon
      rcases hcon with h | h <;> exact absurd rfl h

/-- Concrete scenario for C3 (spec scenario B): a store holding two `Person`
vertices and one `KNOWS` edge between them, built through the engine API. -/
def c3Store : RocksDbStorage :=
  match (RocksDbStorage.new [] "g").create_vertex "Person" Json.null with
  | .ok (vA, s1) =>
    match s1.create_vertex "Person" Json.null with
    | .ok (vB, s2) =>
      match s2.create_edge "KNOWS" vA.id vB.id Json.null with
      | .ok (_, s3) => s3
      | .error _ => s2
    | .error _ => s1
  | .error _ => RocksDbStorage.new [] "g"

/-- The identifier allocated to the first `Person` vertex in `c3Store`. -/
def c3A : Graphid := Graphid.from_raw (2 ^ 48 + 1)

/-- The identifier allocated to the second `Person` vertex in `c3Store`. -/
def c3B : Graphid := Graphid.from_raw (2 ^ 48 + 2)

/-- The `KNOWS` edge record held by `c3Store`. -/
def c3Edge : Edge :=
  Edge.new (Graphid.from_raw (2 * 2 ^ 48 + 1)) c3A c3B "KNOWS" Json.null

/-- Witness for C3 at the concrete scenario: vertex `A` has one outgoing and no
incoming edge, so `delete_vertex(A)` fails with `VertexHasEdges(1)`. -/
theorem delete_vertex_succeeds_iff_witness :
    c3Store.delete_vertex c3A = .error (.vertexHasEdges c3A.display 1) :=
  (delete_vertex_succeeds_iff c3Store c3A [c3Edge] [] rfl rfl).2.2
    (Or.inl (by simp))

/-- The committed store after the storage engine creates a `Person` vertex in
an empty namespace `g`: the catalog persists `Person ↦ 1`. -/
def c1Store : Store :=
  match (RocksDbStorage.new [] "g").create_vertex "Person" Json.null with
  | .ok p => p.2.db
  | .error _ => []

/-- C1 (failing-input evaluation): with label `Person` already persisted at
ordinal 1, a fresh transaction that creates a vertex with the new label
`Animal` assigns it ordinal 1 as well — the transaction-local `next_label_id`
restarts at 1 and never consults `max(existing)`, so two distinct label names
share an ordinal, contradicting the never-reused invariant (the engine-level
path, shown first, does assign `Person` ordinal 1 = max+1 correctly). -/
theorem tx_label_ordinal_reused :
    (((RocksDbStorage.new [] "g").create_vertex "Person" Json.null).toOption.map
        (fun p => p.1.id.labid) = some 1) ∧
    c1Store.get (Key.label "g" "Person") = some (Val.labelId 1) ∧
    (((RocksDbTransaction.new c1Store "g").create_vertex "Animal" Json.null).toOption.map
        (fun p => p.1.id.labid) = some 1) ∧
    "Animal" ≠ "Person" := by
  refine ⟨rfl, rfl, rfl, by decide⟩

theorem tx_get_or_create_label_db_eq (tx : RocksDbTransaction) (label : String)
    (x : Nat) (tx' : RocksDbTransaction)
    (h : tx.get_or_create_label label = .ok (x, tx')) : tx'.db = tx.db := by
  unfold RocksDbTransaction.get_or_create_label at h
  split at h
  · cases h
    rfl
  · split at h
    · cases h
      rfl
    · exact Except.noConfusion h
    · simp only [] at h
      split at h
      · exact Except.noConfusion h
      · cases h
        rfl

theorem tx_next_local_id_db_eq (tx : RocksDbTransaction) (label : String)
    (x : Nat) (tx' : RocksDbTransaction)
    (h : tx.next_local_id label = .ok (x, tx')) : tx'.db = tx.db := by
  unfold RocksDbTransaction.next_local_id at h
  split at h
  · simp only [] at h
    split at h
    · exact Except.noConfusion h
    · cases h
      rfl
  · simp only [] at h
    split at h
    · exact Except.noConfusion h
    · cases h
      rfl

theorem tx_create_edge_db_eq (tx : RocksDbTransaction) (label : String)
    (a b : Graphid) (props : Json) (e : Edge) (tx2 : RocksDbTransaction)
    (h : tx.create_edge label a b props = .ok (e, tx2)) : tx2.db = tx.db := by
  unfold RocksDbTransaction.create_edge at h
  simp only [bind, Except.bind] at h
  split at h
  · exact Except.noConfusion h
  · split at h
    · exact Except.noConfusion h
    · rename_i p1 hlab
      split at h
      · exact Except.noConfusion h
      · rename_i p2 hloc
        split at h
        · exact Except.noConfusion h
        · cases h
          have e1 := tx_get_or_create_label_db_eq tx label _ _ hlab
          have e2 := tx_next_local_id_db_eq _ label _ _ hloc
          simp only [RocksDbTransaction.putOp]
          rw [e2, e1]

/-- C10: for an edge identifier with no committed edge record, the
transaction-level `delete_edge` returns `Ok(())` without staging anything (the
handle is returned unchanged), whereas the storage-engine-level `delete_edge`
on the same committed state fails with `EdgeNotFound`; and `create_edge` in a
transaction never touches the committed state, so an edge created but not yet
committed in the same transaction also reads back absent and its deletion
stages nothing. -/
theorem tx_delete_edge_missing_noop (tx : RocksDbTransaction) (id : Graphid)
    (hc : tx.committed = false) (hr : tx.rolled_back = false)
    (hmiss : tx.db.get (Key.edge tx.graph_name id.labid id.locid) = none) :
    tx.delete_edge id = .ok tx ∧
    (∀ s : RocksDbStorage, s.db = tx.db → s.graph_name = tx.graph_name →
      s.delete_edge id = .error (.edgeNotFound id.display)) ∧
    (∀ label a b props e tx2,
      tx.create_edge label a b props = .ok (e, tx2) → tx2.db = tx.db) := by
  have hstate : tx.check_state = .ok () := by
    unfold RocksDbTransaction.check_state
    rw [if_neg (by simp [hc]), if_neg (by simp [hr])]
  refine ⟨?_, ?_, ?_⟩
  · unfold RocksDbTransaction.delete_edge
    rw [hstate]
    simp only [Except.bind, bind]
    rw [hmiss]
  · intro s hdb hns
    unfold RocksDbStorage.delete_edge RocksDbStorage.get_edge
    rw [hdb, hns, hmiss]
    rfl
  · intro label a b props e tx2 h
    exact tx_create_edge_db_eq tx label a b props e tx2 h

/-- Witness for C10 at a concrete input: a fresh transaction over an empty
store, and the edge identifier `2.1` which has no committed record. -/
theorem tx_delete_edge_missing_noop_witness :
    (RocksDbTransaction.new [] "g").delete_edge
        (Graphid.from_raw (2 * 2 ^ 48 + 1)) = .ok (RocksDbTransaction.new [] "g") ∧
    (∀ s : RocksDbStorage, s.db = (RocksDbTransaction.new [] "g").db →
      s.graph_name = (RocksDbTransaction.new [] "g").graph_name →
      s.delete_edge (Graphid.from_raw (2 * 2 ^ 48 + 1)) =
        .error (.edgeNotFound (Graphid.from_raw (2 * 2 ^ 48 + 1)).display)) ∧
    (∀ label a b props e tx2,
      (RocksDbTransaction.new [] "g").create_edge label a b props = .ok (e, tx2) →
        tx2.db = (RocksDbTransaction.new [] "g").db) :=
  tx_delete_edge_missing_noop (RocksDbTransaction.new [] "g")
    (Graphid.from_raw (2 * 2 ^ 48 + 1)) rfl rfl rfl

/-- Binary operators of the query tree (parser/ast.rs `BinaryOperator`). -/
inductive BinaryOperator where
  | add | subtract | multiply | divide | modulo
  | eq | neq | lt | gt | lte | gte
  | and | or
deriving DecidableEq

/-- Unary operators of the query tree (parser/ast.rs `UnaryOperator`). -/
inductive UnaryOperator where
  | not | minus | plus
deriving DecidableEq

/-- Property chain `a.b.c…` (parser/ast.rs `PropertyExpression`). -/
structure PropertyExpression where
  base : String
  properties : List String

mutual
/-- Query-tree expressions (parser/ast.rs `Expression`); the `Variable` and
`Property` constructors keep their source names modulo Lean quoting.  `f64`
literals are represented as exact rationals. -/
inductive Expression where
  | literal (lit : Literal)
  | «variable» (name : String)
  | parameter (name : String)
  | binaryOp (left : Expression) (op : BinaryOperator) (right : Expression)
  | unaryOp (op : UnaryOperator) (expr : Expression)
  | property (prop : PropertyExpression)
  | index (base : Expression) (idx : Expression)
  | functionCall (name : String) (args : List Expression)

/-- Literal values (parser/ast.rs `Literal`). -/
inductive Literal where
  | null
  | boolean (b : Bool)
  | integer (i : Int)
  | float (q : ℚ)
  | str (s : String)
  | list (items : List Expression)
  | map (entries : List (String × Expression))
end

/-- Execution errors (executor/mod.rs `ExecutionError`). -/
inductive ExecutionError where
  | storageError (e : StorageError)
  | variableNotFound (s : String)
  | typeMismatch (expected actual : String)
  | invalidExpression (s : String)
  | propertyNotFound (s : String)
  | unsupportedOperation (s : String)

/-- Row values (executor/mod.rs `Value`): the discriminated union bound to
pattern variables.  `f64` floats are represented as exact rationals; `f64`
rounding itself is outside the embedding. -/
inductive Value where
  | null
  | boolean (b : Bool)
  | integer (i : Int)
  | float (q : ℚ)
  | str (s : String)
  | list (items : List Value)
  | map (entries : List (String × Value))
  | vertex (v : Vertex)
  | edge (e : Edge)
  | path (items : List Value)

/-- A binding row (executor/mod.rs `Row`): variable name to value. -/
structure Row where
  bindings : List (String × Value)

/-- Constructor `Row::new`. -/
def Row.new : Row := ⟨[]⟩

/-- Binding read `Row::get`. -/
def Row.get (row : Row) (name : String) : Option Value :=
  alookup row.bindings name

/-- Binding write `Row::insert`. -/
def Row.insert (row : Row) (name : String) (value : Value) : Row :=
  ⟨ainsert row.bindings name value⟩

/-- Node element of a pattern (parser/ast.rs `NodePattern`). -/
structure NodePattern where
  «variable» : Option String
  label : Option String
  properties : Option (List (String × Expression))

/-- Projection item of a RETURN clause (parser/ast.rs `ReturnItem`); the
`alias` field keeps its source name modulo Lean quoting. -/
structure ReturnItem where
  expression : Expression
  «alias» : Option String

/-- Sort item of an ORDER BY list (parser/ast.rs `SortItem`). -/
structure SortItem where
  expression : Expression
  ascending : Bool

/-- RETURN clause (parser/ast.rs `ReturnClause`); `limit` is an `i64`. -/
structure ReturnClause where
  items : List ReturnItem
  order_by : Option (List SortItem)
  limit : Option Int

mutual
/-- Conversion `literal_to_value` (executor/mod.rs and match_executor.rs): in
lists and maps only literal elements survive (`filter_map`). -/
def literal_to_value : Literal → Value
  | .null => .null
  | .boolean b => .boolean b
  | .integer i => .integer i
  | .float q => .float q
  | .str s => .str s
  | .list items => .list (literalListValues items)
  | .map entries => .map (literalMapValues entries)

/-- The `filter_map` over list elements in `literal_to_value`. -/
def literalListValues : List Expression → List Value
  | [] => []
  | .literal lit :: rest => literal_to_value lit :: literalListValues rest
  | _ :: rest => literalListValues rest

/-- The `filter_map` over map entries in `literal_to_value`. -/
def literalMapValues : List (String × Expression) → List (String × Value)
  | [] => []
  | (k, .literal lit) :: rest => (k, literal_to_value lit) :: literalMapValues rest
  | _ :: rest => literalMapValues rest
end

mutual
/-- Conversion `json_to_value` (executor/mod.rs): JSON property values into row
values; `i64` JSON numbers become integers, exact-rational numbers floats. -/
def json_to_value : Json → Value
  | .null => .null
  | .bool b => .boolean b
  | .num n => .integer n
  | .fnum q => .float q
  | .str s => .str s
  | .arr items => .list (jsonListValues items)
  | .obj fields => .map (jsonMapValues fields)

/-- Element-wise conversion of a JSON array in `json_to_value`. -/
def jsonListValues : List Json → List Value
  | [] => []
  | j :: rest => json_to_value j :: jsonListValues rest

/-- Entry-wise conversion of a JSON object in `json_to_value`. -/
def jsonMapValues : List (String × Json) → List (String × Value)
  | [] => []
  | (k, j) :: rest => (k, json_to_value j) :: jsonMapValues rest
end

/-- Navigation `extract_json_property` (executor/mod.rs): walk the property
path inside a JSON object, failing with `PropertyNotFound` at the first
missing key, then convert to a row value. -/
def extract_json_property (json : Json) (properties : List String) :
    Except ExecutionError Value :=
  match properties with
  | [] => .ok (json_to_value json)
  | prop :: rest =>
    match json.get prop with
    | some next => extract_json_property next rest
    | none => .error (.propertyNotFound prop)

mutual
/-- Debug-style rendering of a row value, modelling the derived `Debug`
formatting used by the executor only as a deterministic fallback for
heterogeneous comparisons (no claim depends on the exact strings). -/
def debugRepr : Value → String
  | .null => "Null"
  | .boolean b => "Boolean(" ++ toString b ++ ")"
  | .integer i => "Integer(" ++ toString i ++ ")"
  | .float q => "Float(" ++ toString q ++ ")"
  | .str s => "String(" ++ s ++ ")"
  | .list items => "List(" ++ debugReprList items ++ ")"
  | .map entries => "Map(" ++ debugReprMap entries ++ ")"
  | .vertex v => "Vertex(" ++ v.id.display ++ ")"
  | .edge e => "Edge(" ++ e.id.display ++ ")"
  | .path items => "Path(" ++ toString items.length ++ ")"

/-- Comma-joined debug rendering of list elements. -/
def debugReprList : List Value → String
  | [] => ""
  | [v] => debugRepr v
  | v :: rest => debugRepr v ++ ", " ++ debugReprList rest

/-- Comma-joined debug rendering of map entries. -/
def debugReprMap : List (String × Value) → String
  | [] => ""
  | [(k, v)] => k ++ ": " ++ debugRepr v
  | (k, v) :: rest => k ++ ": " ++ debugRepr v ++ ", " ++ debugReprMap rest
end

/-- Deterministic value comparison `compare_values` (executor/mod.rs): null
sorts last, numbers interconvert, strings and booleans use their natural
orders, and heterogeneous pairs fall back to comparing a printable
representation. -/
def compare_values (left right : Value) : Ordering :=
  match left, right with
  | .null, .null => .eq
  | .null, _ => .gt
  | _, .null => .lt
  | .integer a, .integer b => compare a b
  | .float a, .float b => compare a b
  | .integer a, .float b => compare (a : ℚ) b
  | .float a, .integer b => compare a (b : ℚ)
  | .str a, .str b => compare a b
  | .boolean a, .boolean b => compare a b
  | a, b => compare (debugRepr a) (debugRepr b)

/-- Property read on a bound value `get_property` (executor/mod.rs): only
vertices and edges expose properties. -/
def get_property (value : Value) (properties : List String) :
    Except ExecutionError Value :=
  match value with
  | .vertex v => extract_json_property v.properties properties
  | .edge e => extract_json_property e.properties properties
  | other => .error (.typeMismatch "Vertex or Edge" (debugRepr other))

/-- Per-row expression evaluation `evaluate_row_expression` (executor/mod.rs),
used inside aggregates: variables, property chains and literals only. -/
def evaluate_row_expression (expr : Expression) (row : Row) :
    Except ExecutionError Value :=
  match expr with
  | .«variable» var =>
    match row.get var with
    | some v => .ok v
    | none => .error (.variableNotFound var)
  | .property prop =>
    match row.get prop.base with
    | some value => get_property value prop.properties
    | none => .error (.variableNotFound prop.base)
  | .literal lit => .ok (literal_to_value lit)
  | _ => .error (.unsupportedOperation
      "Complex expressions in aggregates not yet supported")

/-- Model of `str::to_uppercase` as used on aggregate function names: ASCII
letters are upper-cased (the engine's function names are ASCII, and core
`String.toUpper` does not reduce in the kernel). -/
def rustToUppercase (s : String) : String :=
  ⟨s.data.map (fun c => if 'a' ≤ c && c ≤ 'z' then Char.ofNat (c.toNat - 32) else c)⟩

/-- Aggregate detection `contains_aggregate` (executor/mod.rs): a function
call named COUNT, SUM, AVG, MIN or MAX (case-insensitive), searched through
binary and unary operators. -/
def contains_aggregate : Expression → Bool
  | .functionCall name _ =>
    let name_upper := rustToUppercase name
    name_upper = "COUNT" || name_upper = "SUM" || name_upper = "AVG" ||
      name_upper = "MIN" || name_upper = "MAX"
  | .binaryOp left _ right => contains_aggregate left || contains_aggregate right
  | .unaryOp _ expr => contains_aggregate expr
  | _ => false

/-- The non-null test used by `COUNT(expr)`: evaluation errors and nulls do
not count. -/
def countsNonNull (arg : Expression) (row : Row) : Bool :=
  match evaluate_row_expression arg row with
  | .ok .null => false
  | .ok _ => true
  | .error _ => false

/-- Aggregate `aggregate_count` (executor/mod.rs): with no argument the row
count, otherwise the number of rows on which the argument evaluates to a
non-null value. -/
def aggregate_count (args : List Expression) (rows : List Row) :
    Except ExecutionError Value :=
  match args with
  | [] => .ok (.integer rows.length)
  | arg :: _ => .ok (.integer (rows.countP (countsNonNull arg)))

/-- The accumulating loop of `aggregate_sum`. -/
def aggregateSumLoop (arg : Expression) :
    List Row → Int → ℚ → Bool → Nat →
      Except ExecutionError (Int × ℚ × Bool × Nat)
  | [], sum_int, sum_float, has_float, count =>
    .ok (sum_int, sum_float, has_float, count)
  | row :: rest, sum_int, sum_float, has_float, count => do
    match ← evaluate_row_expression arg row with
    | .integer i =>
      aggregateSumLoop arg rest (sum_int + i) (sum_float + (i : ℚ)) has_float (count + 1)
    | .float f =>
      aggregateSumLoop arg rest sum_int (sum_float + f) true (count + 1)
    | .null => aggregateSumLoop arg rest sum_int sum_float has_float count
    | _ => .error (.typeMismatch "Number" "Non-numeric value")

/-- Aggregate `aggregate_sum` (executor/mod.rs): integer-only input yields an
integer, any float input a float; empty or all-null input yields `Null`. -/
def aggregate_sum (args : List Expression) (rows : List Row) :
    Except ExecutionError Value :=
  match args with
  | [] => .error (.invalidExpression "SUM requires an argument")
  | arg :: _ => do
    let (sum_int, sum_float, has_float, count) ← aggregateSumLoop arg rows 0 0 false 0
    if count = 0 then .ok .null
    else if has_float then .ok (.float sum_float)
    else .ok (.integer sum_int)

/-- The accumulating loop of `aggregate_avg`. -/
def aggregateAvgLoop (arg : Expression) :
    List Row → ℚ → Nat → Except ExecutionError (ℚ × Nat)
  | [], sum, count => .ok (sum, count)
  | row :: rest, sum, count => do
    match ← evaluate_row_expression arg row with
    | .integer i => aggregateAvgLoop arg rest (sum + (i : ℚ)) (count + 1)
    | .float f => aggregateAvgLoop arg rest (sum + f) (count + 1)
    | .null => aggregateAvgLoop arg rest sum count
    | _ => .error (.typeMismatch "Number" "Non-numeric value")

/-- Aggregate `aggregate_avg` (executor/mod.rs): the mean as a float;
empty or all-null input yields `Null`. -/
def aggregate_avg (args : List Expression) (rows : List Row) :
    Except ExecutionError Value :=
  match args with
  | [] => .error (.invalidExpression "AVG requires an argument")
  | arg :: _ => do
    let (sum, count) ← aggregateAvgLoop arg rows 0 0
    if count = 0 then .ok .null
    else .ok (.float (sum / (count : ℚ)))

/-- The reduction loop shared by `aggregate_min` and `aggregate_max`; `keep`
is the ordering outcome on which the new value replaces the current one. -/
def aggregateOrdLoop (arg : Expression) (keep : Ordering) :
    List Row → Option Value → Except ExecutionError (Option Value)
  | [], acc => .ok acc
  | row :: rest, acc => do
    let value ← evaluate_row_expression arg row
    match value with
    | .null => aggregateOrdLoop arg keep rest acc
    | v =>
      match acc with
      | none => aggregateOrdLoop arg keep rest (some v)
      | some current =>
        if compare_values v current = keep then
          aggregateOrdLoop arg keep rest (some v)
        else aggregateOrdLoop arg keep rest (some current)

/-- Aggregate `aggregate_min` (executor/mod.rs). -/
def aggregate_min (args : List Expression) (rows : List Row) :
    Except ExecutionError Value :=
  match args with
  | [] => .error (.invalidExpression "MIN requires an argument")
  | arg :: _ => do
    let acc ← aggregateOrdLoop arg Ordering.lt rows none
    .ok (acc.getD .null)

/-- Aggregate `aggregate_max` (executor/mod.rs). -/
def aggregate_max (args : List Expression) (rows : List Row) :
    Except ExecutionError Value :=
  match args with
  | [] => .error (.invalidExpression "MAX requires an argument")
  | arg :: _ => do
    let acc ← aggregateOrdLoop arg Ordering.gt rows none
    .ok (acc.getD .null)

/-- Dispatch `evaluate_aggregate` (executor/mod.rs): the five aggregate
functions by upper-cased name; a non-aggregate variable or property in an
aggregate query takes the first row's value. -/
def evaluate_aggregate (expr : Expression) (rows : List Row) :
    Except ExecutionError Value :=
  match expr with
  | .functionCall name args =>
    let name_upper := rustToUppercase name
    if name_upper = "COUNT" then aggregate_count args rows
    else if name_upper = "SUM" then aggregate_sum args rows
    else if name_upper = "AVG" then aggregate_avg args rows
    else if name_upper = "MIN" then aggregate_min args rows
    else if name_upper = "MAX" then aggregate_max args rows
    else .error (.unsupportedOperation ("Unknown aggregate function: " ++ name))
  | .«variable» var =>
    match (rows.head?).bind (fun row => row.get var) with
    | some v => .ok v
    | none => .error (.variableNotFound var)
  | .property prop =>
    match rows.head? with
    | some row =>
      match row.get prop.base with
      | some value => get_property value prop.properties
      | none => .error (.variableNotFound prop.base)
    | none => .error (.variableNotFound prop.base)
  | _ => .error (.unsupportedOperation
      "Unsupported expression in aggregate context")

/-- Key naming `get_return_key` (executor/mod.rs): the alias when given, else
the variable name, the dotted property chain, `name()` for a nullary call,
`name(...)` otherwise, or `expr`. -/
def get_return_key (item : ReturnItem) : String :=
  match item.«alias» with
  | some a => a
  | none =>
    match item.expression with
    | .«variable» var => var
    | .property prop => prop.base ++ "." ++ String.intercalate "." prop.properties
    | .functionCall name args =>
      if args.isEmpty then name ++ "()" else name ++ "(...)"
    | _ => "expr"

/-- The accumulating loop of `compute_aggregates` (executor/mod.rs): one
binding per return item, inserted in order into the single result row. -/
def computeAggregatesLoop (rows : List Row) :
    List ReturnItem → Row → Except ExecutionError Row
  | [], result => .ok result
  | item :: items, result => do
    let value ← evaluate_aggregate item.expression rows
    computeAggregatesLoop rows items (result.insert (get_return_key item) value)

/-- Aggregate-row assembly `compute_aggregates` (executor/mod.rs). -/
def compute_aggregates (rows : List Row) (items : List ReturnItem) :
    Except ExecutionError Row :=
  computeAggregatesLoop rows items Row.new

/-- One row's projection in the non-aggregate RETURN branch
(executor/mod.rs `apply_return`): variables and property chains only, keyed by
alias, variable name or dotted chain; anything else is unsupported. -/
def projectRowLoop (row : Row) : List ReturnItem → Row → Except ExecutionError Row
  | [], acc => .ok acc
  | item :: items, acc =>
    match item.expression with
    | .«variable» var =>
      match row.get var with
      | some value =>
        projectRowLoop row items
          (acc.insert ((item.«alias»).getD var) value)
      | none => projectRowLoop row items acc
    | .property prop =>
      match row.get prop.base with
      | some value => do
        let prop_value ← get_property value prop.properties
        projectRowLoop row items
          (acc.insert ((item.«alias»).getD
            (prop.base ++ "." ++ String.intercalate "." prop.properties)) prop_value)
      | none => projectRowLoop row items acc
    | _ => .error (.unsupportedOperation "Complex expressions in RETURN")

/-- Expression evaluation for sorting `evaluate_sort_expression`
(executor/mod.rs). -/
def evaluate_sort_expression (expr : Expression) (row : Row) :
    Except ExecutionError Value :=
  match expr with
  | .«variable» var =>
    match row.get var with
    | some v => .ok v
    | none => .error (.variableNotFound var)
  | .property prop =>
    match row.get prop.base with
    | some value => get_property value prop.properties
    | none => .error (.variableNotFound prop.base)
  | .literal lit => .ok (literal_to_value lit)
  | _ => .error (.unsupportedOperation "Complex expressions in ORDER BY")

/-- The cascading row comparator of `apply_order_by` (executor/mod.rs):
evaluation errors sort last, descending reverses each item, ties cascade. -/
def sortCmp : List SortItem → Row → Row → Ordering
  | [], _, _ => .eq
  | sort_item :: rest, a, b =>
    let val_a := evaluate_sort_expression sort_item.expression a
    let val_b := evaluate_sort_expression sort_item.expression b
    let ordering :=
      match val_a, val_b with
      | .ok va, .ok vb => compare_values va vb
      | .error _, .ok _ => Ordering.gt
      | .ok _, .error _ => Ordering.lt
      | .error _, .error _ => Ordering.eq
    let ordering := if sort_item.ascending then ordering else ordering.swap
    if ordering ≠ Ordering.eq then ordering else sortCmp rest a b

/-- Stable sort `apply_order_by` (executor/mod.rs): `sort_by` with the
cascading comparator; an empty sort list leaves the rows unchanged. -/
def apply_order_by (rows : List Row) (sort_items : List SortItem) : List Row :=
  if sort_items.isEmpty then rows
  else rows.mergeSort (fun a b => sortCmp sort_items a b ≠ Ordering.gt)

/-- RETURN pipeline `apply_return` (executor/mod.rs): when any return item
contains an aggregate call the rows collapse to the single aggregate row;
otherwise each row is projected, the optional ORDER BY applied, and a
non-negative LIMIT truncates. -/
def apply_return (rows : List Row) (return_clause : ReturnClause) :
    Except ExecutionError (List Row) :=
  let has_aggregates :=
    return_clause.items.any (fun item => contains_aggregate item.expression)
  if has_aggregates then do
    let aggregated_row ← compute_aggregates rows return_clause.items
    .ok [aggregated_row]
  else do
    let projected ← rows.mapM (fun row => projectRowLoop row return_clause.items Row.new)
    let sorted :=
      match return_clause.order_by with
      | some sort_items => apply_order_by projected sort_items
      | none => projected
    match return_clause.limit with
    | some limit => if limit ≥ 0 then .ok (sorted.take limit.toNat) else .ok sorted
    | none => .ok sorted

theorem computeAggregatesLoop_get_of_notmem (rows : List Row) :
    ∀ (items : List ReturnItem) (acc r : Row),
      computeAggregatesLoop rows items acc = .ok r →
      ∀ key, key ∉ items.map get_return_key → r.get key = acc.get key := by
  intro items
  induction items with
  | nil =>
    intro acc r h key _
    cases h
    rfl
  | cons item items ih =>
    intro acc r h key hkey
    unfold computeAggregatesLoop at h
    simp only [bind, Except.bind] at h
    cases heval : evaluate_aggregate item.expression rows with
    | error e =>
      rw [heval] at h
      exact Except.noConfusion h
    | ok v =>
      rw [heval] at h
      have hne : key ≠ get_return_key item := by
        intro hc
        exact hkey (by simp [hc])
      have hnot : key ∉ items.map get_return_key := by
        intro hc
        exact hkey (by simp [hc])
      rw [ih _ r h key hnot]
      simp only [Row.insert, Row.get]
      exact alookup_ainsert_ne _ _ _ _ hne

theorem computeAggregatesLoop_get_of_mem (rows : List Row) :
    ∀ (items : List ReturnItem) (acc r : Row),
      (items.map get_return_key).Nodup →
      computeAggregatesLoop rows items acc = .ok r →
      ∀ item ∈ items, ∃ v, evaluate_aggregate item.expression rows = .ok v ∧
        r.get (get_return_key item) = some v := by
  intro items
  induction items with
  | nil =>
    intro acc r _ _ item hmem
    simp at hmem
  | cons item' items ih =>
    intro acc r hnodup h item hmem
    unfold computeAggregatesLoop at h
    simp only [bind, Except.bind] at h
    cases heval : evaluate_aggregate item'.expression rows with
    | error e =>
      rw [heval] at h
      exact Except.noConfusion h
    | ok v =>
      rw [heval] at h
      rcases List.mem_cons.mp hmem with hhead | htail
      · subst hhead
        refine ⟨v, heval, ?_⟩
        have hnot : get_return_key item ∉ items.map get_return_key :=
          (List.nodup_cons.mp (by simpa using hnodup)).1
        rw [computeAggregatesLoop_get_of_notmem rows items _ r h _ hnot]
        simp only [Row.insert, Row.get]
        exact alookup_ainsert_self _ _ _
      · exact ih _ r (List.nodup_cons.mp (by simpa using hnodup)).2 h item htail

/-- C8: when any return item contains an aggregate call (COUNT, SUM, AVG, MIN,
MAX, matched case-insensitively) and `apply_return` succeeds, the result is
exactly one row; in it, a `COUNT` item with no argument is bound to the input
row count and a `COUNT(expr)` item to the number of input rows on which the
argument evaluates to a non-null value.  Return keys are assumed pairwise
distinct so each item's binding is identifiable (a duplicate key would be
overwritten by the later item, as in the source). -/
theorem return_aggregates_collapse (rows : List Row) (rc : ReturnClause)
    (out : List Row)
    (hagg : rc.items.any (fun item => contains_aggregate item.expression) = true)
    (hok : apply_return rows rc = .ok out)
    (hkeys : (rc.items.map get_return_key).Nodup) :
    ∃ r, out = [r] ∧
      ∀ item ∈ rc.items,
        (∀ name, item.expression = .functionCall name [] → rustToUppercase name = "COUNT" →
          r.get (get_return_key item) = some (.integer rows.length)) ∧
        (∀ name arg args, item.expression = .functionCall name (arg :: args) →
          rustToUppercase name = "COUNT" →
          r.get (get_return_key item) =
            some (.integer (rows.countP (countsNonNull arg)))) := by
  unfold apply_return at hok
  rw [hagg] at hok
  simp only [if_true, bind, Except.bind] at hok
  cases hcomp : compute_aggregates rows rc.items with
  | error e =>
    rw [hcomp] at hok
    exact Except.noConfusion hok
  | ok r =>
    rw [hcomp] at hok
    refine ⟨r, by simpa using hok.symm, ?_⟩
    intro item hmem
    obtain ⟨v, heval, hget⟩ :=
      computeAggregatesLoop_get_of_mem rows rc.items Row.new r hkeys hcomp item hmem
    constructor
    · intro name hexpr hname
      rw [hexpr] at heval
      simp only [evaluate_aggregate, hname, if_true, aggregate_count] at heval
      cases heval
      exact hget
    · intro name arg args hexpr hname
      rw [hexpr] at heval
      simp only [evaluate_aggregate, hname, if_true, aggregate_count] at heval
      cases heval
      exact hget

/-- The three-row input of spec scenario E. -/
def c8Rows : List Row :=
  [Row.new.insert "n" (.integer 1), Row.new.insert "n" (.integer 2),
   Row.new.insert "n" (.integer 3)]

/-- The `RETURN COUNT(*) AS count` clause of spec scenario E. -/
def c8Clause : ReturnClause :=
  ⟨[⟨.functionCall "COUNT" [], some "count"⟩], none, none⟩

/-- Witness for C8 at spec scenario E: three input rows and
`RETURN COUNT(*) AS count` collapse to a single row binding `count ↦ 3`. -/
theorem return_aggregates_collapse_witness :
    ∃ r, [Row.new.insert "count" (.integer 3)] = [r] ∧
      ∀ item ∈ c8Clause.items,
        (∀ name, item.expression = .functionCall name [] → rustToUppercase name = "COUNT" →
          r.get (get_return_key item) = some (.integer c8Rows.length)) ∧
        (∀ name arg args, item.expression = .functionCall name (arg :: args) →
          rustToUppercase name = "COUNT" →
          r.get (get_return_key item) =
            some (.integer (c8Rows.countP (countsNonNull arg)))) :=
  return_aggregates_collapse c8Rows c8Clause [Row.new.insert "count" (.integer 3)]
    (by rfl) (by rfl) (by decide)

mutual
/-- Literal-only evaluation `evaluate_literal` (match_executor.rs): property
patterns admit only literal expressions. -/
def evaluate_literal : Expression → Except ExecutionError Json
  | .literal lit => literal_to_json lit
  | _ => .error (.invalidExpression "Only literals supported in property patterns")

/-- Conversion `literal_to_json` (match_executor.rs); the `f64` branch is
always representable here since floats are embedded as exact rationals. -/
def literal_to_json : Literal → Except ExecutionError Json
  | .null => .ok .null
  | .boolean b => .ok (.bool b)
  | .integer i => .ok (.num i)
  | .float q => .ok (.fnum q)
  | .str s => .ok (.str s)
  | .list items => do
    let values ← evalLiteralList items
    .ok (.arr values)
  | .map entries => do
    let fields ← evalLiteralMap entries
    .ok (.obj fields)

/-- Element collection in `literal_to_json` for lists. -/
def evalLiteralList : List Expression → Except ExecutionError (List Json)
  | [] => .ok []
  | e :: rest => do
    let j ← evaluate_literal e
    let js ← evalLiteralList rest
    .ok (j :: js)

/-- Entry collection in `literal_to_json` for maps. -/
def evalLiteralMap : List (String × Expression) →
    Except ExecutionError (List (String × Json))
  | [] => .ok []
  | (k, e) :: rest => do
    let j ← evaluate_literal e
    let js ← evalLiteralMap rest
    .ok ((k, j) :: js)
end

/-- Equality test `values_equal` (match_executor.rs): serde JSON equality. -/
def values_equal (val1 val2 : Json) : Bool := Json.beq val1 val2

/-- The conjunctive property filter loop of `match_node_properties`
(match_executor.rs): each pattern entry must be a literal equal to the
vertex's property of the same key; a missing property is `PropertyNotFound`. -/
def matchPropsLoop (vertex : Vertex) :
    List (String × Expression) → Except ExecutionError Bool
  | [] => .ok true
  | (key, expr) :: rest => do
    let pattern_value ← evaluate_literal expr
    match vertex.properties.get key with
    | none => .error (.propertyNotFound key)
    | some vertex_value =>
      if values_equal pattern_value vertex_value then matchPropsLoop vertex rest
      else .ok false

/-- Property filter `match_node_properties` (match_executor.rs). -/
def match_node_properties (vertex : Vertex) (pattern : NodePattern) :
    Except ExecutionError Bool :=
  match pattern.properties with
  | none => .ok true
  | some props => matchPropsLoop vertex props

/-- The row-building iteration of `match_node_pattern` (match_executor.rs):
one row per matching vertex, binding the pattern variable when present; the
first error aborts the collection. -/
def matchNodeRows (node : NodePattern) :
    List Vertex → Except ExecutionError (List Row)
  | [] => .ok []
  | vertex :: rest =>
    match match_node_properties vertex node with
    | .ok true =>
      let row := Row.new
      let row :=
        match node.«variable» with
        | some var => row.insert var (.vertex vertex)
        | none => row
      match matchNodeRows node rest with
      | .ok rows => .ok (row :: rows)
      | .error e => .error e
    | .ok false => matchNodeRows node rest
    | .error e => .error e

/-- Node-only pattern execution `match_node_pattern` (match_executor.rs):
scan the vertices of the pattern's label (the empty string when unlabelled)
and keep the rows passing the property filter; any storage error — including
`LabelNotFound` from the catalog — propagates via `?`. -/
def match_node_pattern (s : RocksDbStorage) (node : NodePattern) :
    Except ExecutionError (List Row) :=
  match s.scan_vertices ((node.label).getD "") with
  | .error e => .error (.storageError e)
  | .ok vertices => matchNodeRows node vertices

/-- C7 counterexample: over an empty namespace, a MATCH on the never-created
label `Person` surfaces `LabelNotFound` wrapped as a storage execution error —
it does not yield an empty result set. -/
theorem match_unknown_label_errors_cex :
    match_node_pattern (RocksDbStorage.new [] "g")
        ⟨some "n", some "Person", none⟩ =
      .error (.storageError (.labelNotFound "Person")) ∧
    ¬ match_node_pattern (RocksDbStorage.new [] "g")
        ⟨some "n", some "Person", none⟩ = .ok [] := by
  refine ⟨rfl, ?_⟩
  intro h
  exact Except.noConfusion h

/-- C7 amended: executing a MATCH whose node pattern names a label the catalog
cannot resolve fails with the storage `LabelNotFound` error wrapped as an
executor `StorageError` — catalog-not-found on a scan propagates; it is not
converted into an empty result. -/
theorem match_unknown_label_errors (s : RocksDbStorage) (node : NodePattern)
    (hmiss : s.get_label_id ((node.label).getD "") =
      .error (.labelNotFound ((node.label).getD ""))) :
    match_node_pattern s node =
      .error (.storageError (.labelNotFound ((node.label).getD ""))) := by
  unfold match_node_pattern RocksDbStorage.scan_vertices
  simp only [bind, Except.bind]
  rw [hmiss]

/-- Witness for the amended C7 at a concrete input: the empty namespace and a
`(n:Person)` pattern. -/
theorem match_unknown_label_errors_witness :
    match_node_pattern (RocksDbStorage.new [] "g")
        ⟨some "n", some "Person", none⟩ =
      .error (.storageError (.labelNotFound "Person")) :=
  match_unknown_label_errors (RocksDbStorage.new [] "g")
    ⟨some "n", some "Person", none⟩ rfl

/-- Algorithm errors (algorithms/mod.rs `AlgorithmError`). -/
inductive AlgorithmError where
  | storageError (e : StorageError)
  | pathNotFound (s t : Graphid)
  | invalidParameters (msg : String)
  | algorithmFailed (msg : String)

/-- The pure view of the storage capabilities the algorithms consume through
`Arc<dyn GraphStorage>`: vertex lookup by identifier and outgoing adjacency.
The adjacency order models the index scan order; none of the proved claims
depends on it. -/
structure GraphState where
  vertices : List Vertex
  edges : List Edge

/-- Capability `get_vertex` of the algorithms' storage view. -/
def GraphState.get_vertex (g : GraphState) (id : Graphid) : Option Vertex :=
  g.vertices.find? (fun v => decide (v.id = id))

/-- Capability `get_outgoing_edges` of the algorithms' storage view. -/
def GraphState.get_outgoing_edges (g : GraphState) (vid : Graphid) : List Edge :=
  g.edges.filter (fun e => decide (e.start = vid))

/-- A variable-length path (algorithms/vle.rs `VariableLengthPath`). -/
structure VariableLengthPath where
  vertices : List Graphid
  edges : List Edge
  length : Nat

/-- Constructor `VariableLengthPath::start_from`. -/
def VariableLengthPath.start_from (vertex : Graphid) : VariableLengthPath :=
  ⟨[vertex], [], 0⟩

/-- Extension `VariableLengthPath::extend`: copy-and-push of one edge and its
target vertex. -/
def VariableLengthPath.extend (p : VariableLengthPath) (edge : Edge)
    (vertex : Graphid) : VariableLengthPath :=
  ⟨p.vertices ++ [vertex], p.edges ++ [edge], p.length + 1⟩

/-- Cycle test `VariableLengthPath::contains_vertex`. -/
def VariableLengthPath.contains_vertex (p : VariableLengthPath)
    (vertex : Graphid) : Bool :=
  p.vertices.contains vertex

/-- Accessor `VariableLengthPath::last_vertex`; the source unwraps, and every
path handled by the search is non-empty. -/
def VariableLengthPath.last_vertex (p : VariableLengthPath) : Graphid :=
  (p.vertices.getLast?).getD ⟨0⟩

/-- Options of the variable-length expansion (algorithms/vle.rs
`VleOptions`). -/
structure VleOptions where
  min_length : Nat
  max_length : Nat
  allow_cycles : Bool
  max_paths : Nat

/-- One expansion step of `variable_length_expand`: extend the path through
every outgoing edge of its last vertex, skipping neighbours already on the
path when cycles are forbidden. -/
def vleExpand (g : GraphState) (options : VleOptions)
    (path : VariableLengthPath) : List VariableLengthPath :=
  (g.get_outgoing_edges path.last_vertex).filterMap (fun edge =>
    let next_vertex := edge.«end»
    if !options.allow_cycles && path.contains_vertex next_vertex then none
    else some (path.extend edge next_vertex))

/-- The BFS loop of `variable_length_expand` (algorithms/vle.rs): dequeue a
partial path, emit it when its length has reached `min_length` (stopping as
soon as a positive `max_paths` is filled), and enqueue its extensions while
below `max_length`.  The fuel bounds the number of dequeues; every property
proved about the loop is an invariant that holds for any fuel. -/
def vleLoop (g : GraphState) (options : VleOptions) :
    Nat → List VariableLengthPath → List VariableLengthPath →
      List VariableLengthPath
  | 0, _, results => results
  | _ + 1, [], results => results
  | fuel + 1, path :: queue, results =>
    let current_length := path.length
    if current_length ≥ options.min_length then
      let results' := results ++ [path]
      if options.max_paths > 0 ∧ results'.length ≥ options.max_paths then
        results'
      else
        let queue' :=
          if current_length < options.max_length then
            queue ++ vleExpand g options path
          else queue
        vleLoop g options fuel queue' results'
    else
      let queue' :=
        if current_length < options.max_length then
          queue ++ vleExpand g options path
        else queue
      vleLoop g options fuel queue' results

/-- Fuel bound for the expansion loop: strictly more than the number of
partial paths of length at most `max_length` that can ever be enqueued. -/
def vleFuel (g : GraphState) (options : VleOptions) : Nat :=
  (g.edges.length + 1) ^ (options.max_length + 1) + 1

/-- Bounded expansion `variable_length_expand` (algorithms/vle.rs): validates
the options (`min ≤ max`, `max ≥ 1`) and the start vertex, then runs the BFS
over partial paths starting from the single-vertex path. -/
def variable_length_expand (g : GraphState) (start : Graphid)
    (options : VleOptions) : Except AlgorithmError (List VariableLengthPath) :=
  if options.min_length > options.max_length then
    .error (.invalidParameters "min_length cannot be greater than max_length")
  else if options.max_length = 0 then
    .error (.invalidParameters "max_length must be at least 1")
  else if (g.get_vertex start).isNone then
    .error (.invalidParameters "Start vertex not found")
  else
    .ok (vleLoop g options (vleFuel g options)
      [VariableLengthPath.start_from start] [])

theorem vleExpand_nodup (g : GraphState) (options : VleOptions)
    (hcyc : options.allow_cycles = false) (path : VariableLengthPath)
    (hnodup : path.vertices.Nodup) :
    ∀ p ∈ vleExpand g options path, p.vertices.Nodup := by
  intro p hp
  unfold vleExpand at hp
  obtain ⟨edge, _, hguard⟩ := List.mem_filterMap.mp hp
  rw [hcyc] at hguard
  simp only [Bool.not_false, Bool.true_and] at hguard
  by_cases hcon : path.contains_vertex edge.«end» = true
  · rw [if_pos hcon] at hguard
    exact Option.noConfusion hguard
  · rw [if_neg hcon] at hguard
    cases hguard
    have hmem : edge.«end» ∉ path.vertices := by
      intro hmem
      exact hcon (by simpa [VariableLengthPath.contains_vertex] using hmem)
    simp [VariableLengthPath.extend, List.nodup_append, hnodup, hmem]

theorem vleLoop_nodup (g : GraphState) (options : VleOptions)
    (hcyc : options.allow_cycles = false) :
    ∀ (fuel : Nat) (queue results : List VariableLengthPath),
      (∀ p ∈ queue, p.vertices.Nodup) → (∀ p ∈ results, p.vertices.Nodup) →
      ∀ p ∈ vleLoop g options fuel queue results, p.vertices.Nodup := by
  intro fuel
  induction fuel with
  | zero =>
    intro queue results _ hres p hp
    exact hres p hp
  | succ fuel ih =>
    intro queue results hqueue hres p hp
    match queue with
    | [] => exact hres p hp
    | path :: queue =>
      unfold vleLoop at hp
      have hpath : path.vertices.Nodup := hqueue path (by simp)
      have hqueue' : ∀ q ∈ queue, q.vertices.Nodup :=
        fun q hq => hqueue q (by simp [hq])
      have hext : ∀ q ∈ queue ++ vleExpand g options path, q.vertices.Nodup := by
        intro q hq
        rcases List.mem_append.mp hq with h | h
        · exact hqueue' q h
        · exact vleExpand_nodup g options hcyc path hpath q h
      by_cases hmin : path.length ≥ options.min_length
      · rw [if_pos hmin] at hp
        have hres' : ∀ q ∈ results ++ [path], q.vertices.Nodup := by
          intro q hq
          rcases List.mem_append.mp hq with h | h
          · exact hres q h
          · rw [List.mem_singleton.mp h]
            exact hpath
        by_cases hbreak : options.max_paths > 0 ∧
            (results ++ [path]).length ≥ options.max_paths
        · rw [if_pos hbreak] at hp
          exact hres' p hp
        · rw [if_neg hbreak] at hp
          by_cases hlen : path.length < options.max_length
          · rw [if_pos hlen] at hp
            exact ih _ _ hext hres' p hp
          · rw [if_neg hlen] at hp
            exact ih _ _ hqueue' hres' p hp
      · rw [if_neg hmin] at hp
        by_cases hlen : path.length < options.max_length
        · rw [if_pos hlen] at hp
          exact ih _ _ hext hres p hp
        · rw [if_neg hlen] at hp
          exact ih _ _ hqueue' hres p hp

theorem vleLoop_count (g : GraphState) (options : VleOptions)
    (hk : 0 < options.max_paths) :
    ∀ (fuel : Nat) (queue results : List VariableLengthPath),
      results.length < options.max_paths →
      (vleLoop g options fuel queue results).length ≤ options.max_paths := by
  intro fuel
  induction fuel with
  | zero =>
    intro queue results hlt
    exact Nat.le_of_lt hlt
  | succ fuel ih =>
    intro queue results hlt
    match queue with
    | [] => exact Nat.le_of_lt hlt
    | path :: queue =>
      unfold vleLoop
      by_cases hmin : path.length ≥ options.min_length
      · rw [if_pos hmin]
        by_cases hbreak : options.max_paths > 0 ∧
            (results ++ [path]).length ≥ options.max_paths
        · rw [if_pos hbreak]
          simp only [List.length_append, List.length_singleton]
          omega
        · rw [if_neg hbreak]
          have hlt' : (results ++ [path]).length < options.max_paths := by
            rcases Nat.lt_or_ge (results ++ [path]).length options.max_paths with h | h
            · exact h
            · exact absurd ⟨hk, h⟩ hbreak
          by_cases hlen : path.length < options.max_length
          · rw [if_pos hlen]
            exact ih _ _ hlt'
          · rw [if_neg hlen]
            exact ih _ _ hlt'
      · rw [if_neg hmin]
        by_cases hlen : path.length < options.max_length
        · rw [if_pos hlen]
          exact ih _ _ hlt
        · rw [if_neg hlen]
          exact ih _ _ hlt

/-- C6: for every start vertex and valid options, successful
`variable_length_expand` with `allow_cycles = false` never returns a path
containing the same vertex twice, and with `max_paths = k > 0` it returns at
most `k` paths. -/
theorem vle_no_cycles_and_max_paths (g : GraphState) (start : Graphid)
    (options : VleOptions) (res : List VariableLengthPath)
    (hok : variable_length_expand g start options = .ok res) :
    (options.allow_cycles = false → ∀ p ∈ res, p.vertices.Nodup) ∧
    (0 < options.max_paths → res.length ≤ options.max_paths) := by
  unfold variable_length_expand at hok
  by_cases h1 : options.min_length > options.max_length
  · rw [if_pos h1] at hok
    exact Except.noConfusion hok
  · rw [if_neg h1] at hok
    by_cases h2 : options.max_length = 0
    · rw [if_pos h2] at hok
      exact Except.noConfusion hok
    · rw [if_neg h2] at hok
      by_cases h3 : (g.get_vertex start).isNone
      · rw [if_pos h3] at hok
        exact Except.noConfusion hok
      · rw [if_neg h3] at hok
        cases hok
        constructor
        · intro hcyc
          refine vleLoop_nodup g options hcyc _ _ _ ?_ ?_
          · intro p hp
            rw [List.mem_singleton.mp hp]
            simp [VariableLengthPath.start_from]
          · intro p hp
            simp at hp
        · intro hk
          exact vleLoop_count g options hk _ _ _ hk

/-- The five-vertex graph of spec scenario D: `A→B, A→C, B→D, B→E, C→E` with
raw identifiers 1–5 for the vertices. -/
def c6Graph : GraphState :=
  ⟨[Vertex.new ⟨1⟩ "Node" Json.null, Vertex.new ⟨2⟩ "Node" Json.null,
    Vertex.new ⟨3⟩ "Node" Json.null, Vertex.new ⟨4⟩ "Node" Json.null,
    Vertex.new ⟨5⟩ "Node" Json.null],
   [Edge.new ⟨11⟩ ⟨1⟩ ⟨2⟩ "LINK" Json.null,
    Edge.new ⟨12⟩ ⟨1⟩ ⟨3⟩ "LINK" Json.null,
    Edge.new ⟨13⟩ ⟨2⟩ ⟨4⟩ "LINK" Json.null,
    Edge.new ⟨14⟩ ⟨2⟩ ⟨5⟩ "LINK" Json.null,
    Edge.new ⟨15⟩ ⟨3⟩ ⟨5⟩ "LINK" Json.null]⟩

/-- Witness for C6 at spec scenario D (`min 1, max 2, no cycles,
max_paths 3`). -/
theorem vle_no_cycles_and_max_paths_witness :
    ((⟨1, 2, false, 3⟩ : VleOptions).allow_cycles = false →
      ∀ p ∈ vleLoop c6Graph ⟨1, 2, false, 3⟩ (vleFuel c6Graph ⟨1, 2, false, 3⟩)
        [VariableLengthPath.start_from ⟨1⟩] [], p.vertices.Nodup) ∧
    (0 < (⟨1, 2, false, 3⟩ : VleOptions).max_paths →
      (vleLoop c6Graph ⟨1, 2, false, 3⟩ (vleFuel c6Graph ⟨1, 2, false, 3⟩)
        [VariableLengthPath.start_from ⟨1⟩] []).length ≤
        (⟨1, 2, false, 3⟩ : VleOptions).max_paths) :=
  vle_no_cycles_and_max_paths c6Graph ⟨1⟩ ⟨1, 2, false, 3⟩ _ rfl

/-- Result of the shortest-path computation (algorithms/shortest_path.rs
`ShortestPathResult`). -/
structure ShortestPathResult where
  path : List Graphid
  cost : Nat
  edges : List Edge

/-- Priority-queue node (algorithms/shortest_path.rs `DijkstraNode`). -/
structure DijkstraNode where
  vertex : Graphid
  cost : Nat
deriving DecidableEq

/-- The `Ord` implementation on `DijkstraNode`: cost compared in reverse (so
the max-heap pops the smallest cost), ties broken by the vertex identifier in
its natural direction. -/
def DijkstraNode.cmp (a b : DijkstraNode) : Ordering :=
  (compare b.cost a.cost).then (compare a.vertex.raw b.vertex.raw)

/-- Extraction of a greatest element under the `DijkstraNode` ordering,
modelling `BinaryHeap::pop`: two nodes comparing equal are identical values,
so any faithful pop returns the same node. -/
def popMax : List DijkstraNode → Option (DijkstraNode × List DijkstraNode)
  | [] => none
  | a :: rest =>
    match popMax rest with
    | none => some (a, [])
    | some (m, rest') =>
      if DijkstraNode.cmp a m = .lt then some (m, a :: rest') else some (a, rest)

/-- The neighbour-relaxation loop inside `dijkstra` (algorithms/
shortest_path.rs): for each outgoing edge, skip visited neighbours, and on a
strictly better cost record the distance and predecessor and push a heap
node. -/
def relaxEdges (visited : List Graphid) (vertex : Graphid) (cost : Nat) :
    List Edge →
      List (Graphid × Nat) × List (Graphid × (Graphid × Edge)) × List DijkstraNode →
      List (Graphid × Nat) × List (Graphid × (Graphid × Edge)) × List DijkstraNode
  | [], acc => acc
  | edge :: edges, (distances, predecessors, heap) =>
    let neighbor := edge.«end»
    if neighbor ∈ visited then
      relaxEdges visited vertex cost edges (distances, predecessors, heap)
    else
      let new_cost := cost + 1
      let is_better :=
        match alookup distances neighbor with
        | some current => decide (new_cost < current)
        | none => true
      if is_better then
        relaxEdges visited vertex cost edges
          (ainsert distances neighbor new_cost,
           ainsert predecessors neighbor (vertex, edge),
           heap ++ [⟨neighbor, new_cost⟩])
      else relaxEdges visited vertex cost edges (distances, predecessors, heap)

/-- The backwards predecessor walk of `reconstruct_path` (algorithms/
shortest_path.rs): push the current vertex and its predecessor edge until the
start is reached; a missing predecessor breaks the loop as in the source.
The fuel bounds the while loop; under the search invariants the chain length
never exceeds the number of predecessor entries. -/
def walkPred (predecessors : List (Graphid × (Graphid × Edge)))
    (start : Graphid) : Nat → Graphid → List Graphid × List Edge × Nat
  | 0, _ => ([], [], 0)
  | fuel + 1, current =>
    if current = start then ([], [], 0)
    else
      match alookup predecessors current with
      | some (prev, edge) =>
        match walkPred predecessors start fuel prev with
        | (path, edges, cost) => (current :: path, edge :: edges, cost + 1)
      | none => ([current], [], 0)

/-- Path reconstruction `reconstruct_path` (algorithms/shortest_path.rs):
walk the predecessors backwards from the end, append the start and reverse
both sequences. -/
def reconstruct_path (start «end» : Graphid)
    (predecessors : List (Graphid × (Graphid × Edge))) : ShortestPathResult :=
  match walkPred predecessors start (predecessors.length + 1) «end» with
  | (path, edges, cost) => ⟨(path ++ [start]).reverse, cost, edges.reverse⟩

/-- The main loop of `dijkstra` (algorithms/shortest_path.rs): pop the
smallest-cost node, skip it when already visited, return the reconstruction
on reaching the end, otherwise relax the outgoing edges and continue.  The
fuel bounds the number of pops and is provably never exhausted starting from
the initial state with fuel `|edges| + 2`. -/
def dijkstraLoop (g : GraphState) (start «end» : Graphid) :
    Nat → List DijkstraNode → List (Graphid × Nat) →
      List (Graphid × (Graphid × Edge)) → List Graphid →
      Option (Except AlgorithmError ShortestPathResult)
  | 0, _, _, _, _ => none
  | fuel + 1, heap, distances, predecessors, visited =>
    match popMax heap with
    | none => some (.error (.pathNotFound start «end»))
    | some (⟨vertex, cost⟩, rest) =>
      if vertex ∈ visited then
        dijkstraLoop g start «end» fuel rest distances predecessors visited
      else
        let visited' := vertex :: visited
        if vertex = «end» then
          some (.ok (reconstruct_path start «end» predecessors))
        else
          match relaxEdges visited' vertex cost (g.get_outgoing_edges vertex)
              (distances, predecessors, rest) with
          | (distances', predecessors', heap') =>
            dijkstraLoop g start «end» fuel heap' distances' predecessors' visited'

/-- Dijkstra's algorithm `dijkstra` (algorithms/shortest_path.rs): uniform
edge weight 1, started from the single heap entry `(start, 0)`.  The dead
fall-through arm is unreachable: the fuel strictly exceeds the loop's
decreasing potential. -/
def dijkstra (g : GraphState) (start «end» : Graphid) :
    Except AlgorithmError ShortestPathResult :=
  match dijkstraLoop g start «end» (g.edges.length + 2)
      [⟨start, 0⟩] [(start, 0)] [] [] with
  | some r => r
  | none => .error (.pathNotFound start «end»)

/-- Entry point `shortest_path` (algorithms/shortest_path.rs): verifies both
endpoints exist, then runs `dijkstra`. -/
def shortest_path (g : GraphState) (start «end» : Graphid) :
    Except AlgorithmError ShortestPathResult :=
  if (g.get_vertex start).isNone then
    .error (.invalidParameters "Start vertex not found")
  else if (g.get_vertex «end»).isNone then
    .error (.invalidParameters "End vertex not found")
  else dijkstra g start «end»

/-- A directed walk through `g`: `chainOk g s es t` holds when the edges `es`
consecutively link `s` to `t` inside `g`. -/
def chainOk (g : List Edge) : Graphid → List Edge → Graphid → Prop
  | s, [], t => s = t
  | s, e :: es, t => e ∈ g ∧ e.start = s ∧ chainOk g e.«end» es t

/-- The vertex sequence of a walk: the start followed by each edge's target. -/
def pathVertices (s : Graphid) (es : List Edge) : List Graphid :=
  s :: es.map (fun e => e.«end»)

theorem popMax_ne_none (a : DijkstraNode) (t : List DijkstraNode) :
    popMax (a :: t) ≠ none := by
  unfold popMax
  split
  · simp
  · split
    · simp
    · simp

theorem popMax_perm (h : List DijkstraNode) :
    ∀ nd rest, popMax h = some (nd, rest) → h.Perm (nd :: rest) := by
  induction h with
  | nil =>
    intro nd rest hp
    exact Option.noConfusion hp
  | cons a t ih =>
    intro nd rest hp
    unfold popMax at hp
    split at hp
    · rename_i hm
      have ht : t = [] := by
        cases t with
        | nil => rfl
        | cons b t' => exact absurd hm (popMax_ne_none b t')
      cases hp
      rw [ht]
    · rename_i m rest' hm
      have hperm := ih m rest' hm
      split at hp
      · cases hp
        exact List.Perm.trans (List.Perm.cons a hperm) (List.Perm.swap _ a _)
      · cases hp
        exact List.Perm.refl _

theorem cmp_eq_lt_iff (a b : DijkstraNode) :
    DijkstraNode.cmp a b = .lt ↔
      (b.cost < a.cost ∨ (b.cost = a.cost ∧ a.vertex.raw < b.vertex.raw)) := by
  unfold DijkstraNode.cmp
  rcases Nat.lt_trichotomy b.cost a.cost with hlt | heq | hgt
  · rw [Nat.compare_eq_lt.mpr hlt]
    simp only [Ordering.then]
    constructor
    · intro _
      exact Or.inl hlt
    · intro _
      trivial
  · rw [Nat.compare_eq_eq.mpr heq]
    simp only [Ordering.then, Nat.compare_eq_lt]
    constructor
    · intro hr
      exact Or.inr ⟨heq, hr⟩
    · intro hor
      rcases hor with hc | ⟨_, hc⟩
      · omega
      · exact hc
  · rw [Nat.compare_eq_gt.mpr hgt]
    simp only [Ordering.then]
    constructor
    · intro hcon
      exact Ordering.noConfusion hcon
    · intro hor
      rcases hor with hc | ⟨hc, _⟩
      · omega
      · omega

theorem popMax_maximal (h : List DijkstraNode) :
    ∀ nd rest, popMax h = some (nd, rest) →
      ∀ x ∈ rest, nd.cost ≤ x.cost ∧
        (x.cost = nd.cost → x.vertex.raw ≤ nd.vertex.raw) := by
  induction h with
  | nil =>
    intro nd rest hp
    exact Option.noConfusion hp
  | cons a t ih =>
    intro nd rest hp
    unfold popMax at hp
    split at hp
    · cases hp
      intro x hx
      simp at hx
    · rename_i m rest' hm
      have hih := ih m rest' hm
      have hperm := popMax_perm t m rest' hm
      split at hp
      · rename_i hlt
        rw [cmp_eq_lt_iff] at hlt
        cases hp
        intro x hx
        rcases List.mem_cons.mp hx with hxa | hxr
        · subst hxa
          constructor
          · rcases hlt with hc | ⟨hc, _⟩
            · omega
            · omega
          · intro hteq
            rcases hlt with hc | ⟨_, hraw⟩
            · omega
            · omega
        · exact hih x hxr
      · rename_i hlt
        rw [cmp_eq_lt_iff] at hlt
        push_neg at hlt
        cases hp
        intro x hx
        have hmem := hperm.mem_iff.mp hx
        rcases List.mem_cons.mp hmem with hxm | hxr
        · subst hxm
          exact ⟨hlt.1, fun he => hlt.2 he⟩
        · have hx' := hih x hxr
          have h1 := hlt.1
          constructor
          · omega
          · intro hteq
            have h2 : x.cost = m.cost := by omega
            have h3 : m.cost = a.cost := by omega
            exact Nat.le_trans (hx'.2 h2) (hlt.2 h3)

theorem chainOk_append_singleton (g : List Edge) (s : Graphid) (es : List Edge)
    (e : Edge) (t : Graphid) :
    chainOk g s (es ++ [e]) t ↔
      (chainOk g s es e.start ∧ e ∈ g ∧ e.«end» = t) := by
  induction es generalizing s with
  | nil =>
    simp only [List.nil_append, chainOk]
    constructor
    · intro ⟨h1, h2, h3⟩
      exact ⟨h2.symm, h1, h3⟩
    · intro ⟨h1, h2, h3⟩
      exact ⟨h2, h1.symm, h3⟩
  | cons e' es ih =>
    simp only [List.cons_append, chainOk, List.append_eq]
    rw [ih]
    constructor
    · intro ⟨h1, h2, h3, h4, h5⟩
      exact ⟨⟨h1, h2, h3⟩, h4, h5⟩
    · intro ⟨⟨h1, h2, h3⟩, h4, h5⟩
      exact ⟨h1, h2, h3, h4, h5⟩

theorem alookup_isSome_mem {β : Type} (l : List (Graphid × β)) (a : Graphid)
    (h : (alookup l a).isSome) : a ∈ l.map Prod.fst := by
  unfold alookup at h
  cases hf : l.find? (fun p => decide (p.1 = a)) with
  | none =>
    rw [hf] at h
    simp at h
  | some pr =>
    have hmem := List.mem_of_find?_eq_some hf
    have hpred := List.find?_some hf
    simp only [decide_eq_true_eq] at hpred
    exact hpred ▸ List.mem_map_of_mem Prod.fst hmem

theorem relaxEdges_nil (vis : List Graphid) (v : Graphid) (c : Nat)
    (acc : List (Graphid × Nat) × List (Graphid × (Graphid × Edge)) × List DijkstraNode) :
    relaxEdges vis v c [] acc = acc := rfl

theorem relaxEdges_cons_skip (vis : List Graphid) (v : Graphid) (c : Nat)
    (e : Edge) (es : List Edge) (d : List (Graphid × Nat))
    (p : List (Graphid × (Graphid × Edge))) (h : List DijkstraNode)
    (hvis : e.«end» ∈ vis) :
    relaxEdges vis v c (e :: es) (d, p, h) = relaxEdges vis v c es (d, p, h) := by
  conv_lhs => unfold relaxEdges
  rw [if_pos hvis]

theorem relaxEdges_cons_fresh (vis : List Graphid) (v : Graphid) (c : Nat)
    (e : Edge) (es : List Edge) (d : List (Graphid × Nat))
    (p : List (Graphid × (Graphid × Edge))) (h : List DijkstraNode)
    (hvis : e.«end» ∉ vis) (hlook : alookup d e.«end» = none) :
    relaxEdges vis v c (e :: es) (d, p, h) =
      relaxEdges vis v c es
        (ainsert d e.«end» (c + 1), ainsert p e.«end» (v, e),
         h ++ [⟨e.«end», c + 1⟩]) := by
  conv_lhs => unfold relaxEdges
  rw [if_neg hvis]
  simp only [hlook, if_true]

theorem relaxEdges_cons_better (vis : List Graphid) (v : Graphid) (c : Nat)
    (e : Edge) (es : List Edge) (d : List (Graphid × Nat))
    (p : List (Graphid × (Graphid × Edge))) (h : List DijkstraNode)
    (current : Nat) (hvis : e.«end» ∉ vis)
    (hlook : alookup d e.«end» = some current) (hb : c + 1 < current) :
    relaxEdges vis v c (e :: es) (d, p, h) =
      relaxEdges vis v c es
        (ainsert d e.«end» (c + 1), ainsert p e.«end» (v, e),
         h ++ [⟨e.«end», c + 1⟩]) := by
  conv_lhs => unfold relaxEdges
  rw [if_neg hvis]
  simp only [hlook]
  simp only [hb, decide_true_eq_true, if_true]

theorem relaxEdges_cons_worse (vis : List Graphid) (v : Graphid) (c : Nat)
    (e : Edge) (es : List Edge) (d : List (Graphid × Nat))
    (p : List (Graphid × (Graphid × Edge))) (h : List DijkstraNode)
    (current : Nat) (hvis : e.«end» ∉ vis)
    (hlook : alookup d e.«end» = some current) (hb : ¬ c + 1 < current) :
    relaxEdges vis v c (e :: es) (d, p, h) = relaxEdges vis v c es (d, p, h) := by
  conv_lhs => unfold relaxEdges
  rw [if_neg hvis]
  simp only [hlook]
  simp [hb]

theorem relax_heap_len (vis : List Graphid) (v : Graphid) (c : Nat) :
    ∀ (E0 : List Edge) (d : List (Graphid × Nat))
      (p : List (Graphid × (Graphid × Edge))) (h : List DijkstraNode),
      (relaxEdges vis v c E0 (d, p, h)).2.2.length ≤ h.length + E0.length := by
  intro E0
  induction E0 with
  | nil =>
    intro d p h
    rw [relaxEdges_nil]
    simp
  | cons e es ih =>
    intro d p h
    by_cases hvis : e.«end» ∈ vis
    · rw [relaxEdges_cons_skip vis v c e es d p h hvis]
      have := ih d p h
      simp only [List.length_cons]
      omega
    · cases hlook : alookup d e.«end» with
      | none =>
        rw [relaxEdges_cons_fresh vis v c e es d p h hvis hlook]
        have := ih (ainsert d e.«end» (c + 1)) (ainsert p e.«end» (v, e))
          (h ++ [⟨e.«end», c + 1⟩])
        simp only [List.length_append, List.length_singleton, List.length_cons,
          List.length_nil] at this ⊢
        omega
      | some current =>
        by_cases hb : c + 1 < current
        · rw [relaxEdges_cons_better vis v c e es d p h current hvis hlook hb]
          have := ih (ainsert d e.«end» (c + 1)) (ainsert p e.«end» (v, e))
            (h ++ [⟨e.«end», c + 1⟩])
          simp only [List.length_append, List.length_singleton, List.length_cons,
            List.length_nil] at this ⊢
          omega
        · rw [relaxEdges_cons_worse vis v c e es d p h current hvis hlook hb]
          have := ih d p h
          simp only [List.length_cons]
          omega

theorem relax_heap_mono (vis : List Graphid) (v : Graphid) (c : Nat) :
    ∀ (E0 : List Edge) (d : List (Graphid × Nat))
      (p : List (Graphid × (Graphid × Edge))) (h : List DijkstraNode),
      ∀ x ∈ h, x ∈ (relaxEdges vis v c E0 (d, p, h)).2.2 := by
  intro E0
  induction E0 with
  | nil =>
    intro d p h x hx
    rw [relaxEdges_nil]
    exact hx
  | cons e es ih =>
    intro d p h x hx
    by_cases hvis : e.«end» ∈ vis
    · rw [relaxEdges_cons_skip vis v c e es d p h hvis]
      exact ih d p h x hx
    · cases hlook : alookup d e.«end» with
      | none =>
        rw [relaxEdges_cons_fresh vis v c e es d p h hvis hlook]
        exact ih _ _ _ x (List.mem_append_left _ hx)
      | some current =>
        by_cases hb : c + 1 < current
        · rw [relaxEdges_cons_better vis v c e es d p h current hvis hlook hb]
          exact ih _ _ _ x (List.mem_append_left _ hx)
        · rw [relaxEdges_cons_worse vis v c e es d p h current hvis hlook hb]
          exact ih d p h x hx

theorem relax_dist_visited (vis : List Graphid) (v : Graphid) (c : Nat) :
    ∀ (E0 : List Edge) (d : List (Graphid × Nat))
      (p : List (Graphid × (Graphid × Edge))) (h : List DijkstraNode),
      ∀ w ∈ vis, alookup (relaxEdges vis v c E0 (d, p, h)).1 w = alookup d w := by
  intro E0
  induction E0 with
  | nil =>
    intro d p h w _
    rw [relaxEdges_nil]
  | cons e es ih =>
    intro d p h w hw
    by_cases hvis : e.«end» ∈ vis
    · rw [relaxEdges_cons_skip vis v c e es d p h hvis]
      exact ih d p h w hw
    · have hne : w ≠ e.«end» := fun hc => hvis (hc ▸ hw)
      cases hlook : alookup d e.«end» with
      | none =>
        rw [relaxEdges_cons_fresh vis v c e es d p h hvis hlook]
        rw [ih _ _ _ w hw]
        exact alookup_ainsert_ne d _ w (c + 1) hne
      | some current =>
        by_cases hb : c + 1 < current
        · rw [relaxEdges_cons_better vis v c e es d p h current hvis hlook hb]
          rw [ih _ _ _ w hw]
          exact alookup_ainsert_ne d _ w (c + 1) hne
        · rw [relaxEdges_cons_worse vis v c e es d p h current hvis hlook hb]
          exact ih d p h w hw

theorem relax_dist_le (vis : List Graphid) (v : Graphid) (c : Nat) :
    ∀ (E0 : List Edge) (d : List (Graphid × Nat))
      (p : List (Graphid × (Graphid × Edge))) (h : List DijkstraNode),
      ∀ w m, alookup d w = some m →
        ∃ m', alookup (relaxEdges vis v c E0 (d, p, h)).1 w = some m' ∧ m' ≤ m := by
  intro E0
  induction E0 with
  | nil =>
    intro d p h w m hm
    rw [relaxEdges_nil]
    exact ⟨m, hm, Nat.le_refl m⟩
  | cons e es ih =>
    intro d p h w m hm
    by_cases hvis : e.«end» ∈ vis
    · rw [relaxEdges_cons_skip vis v c e es d p h hvis]
      exact ih d p h w m hm
    · cases hlook : alookup d e.«end» with
      | none =>
        rw [relaxEdges_cons_fresh vis v c e es d p h hvis hlook]
        have hne : w ≠ e.«end» := by
          intro hc
          rw [hc, hlook] at hm
          exact Option.noConfusion hm
        refine ih _ _ _ w m ?_
        rw [alookup_ainsert_ne d _ w (c + 1) hne]
        exact hm
      | some current =>
        by_cases hb : c + 1 < current
        · rw [relaxEdges_cons_better vis v c e es d p h current hvis hlook hb]
          by_cases hw : w = e.«end»
          · have hcm : current = m := by
              rw [hw, hlook] at hm
              exact Option.some_inj.mp hm
            obtain ⟨m', hm', hle⟩ := ih (ainsert d e.«end» (c + 1))
              (ainsert p e.«end» (v, e)) (h ++ [⟨e.«end», c + 1⟩]) w (c + 1)
              (by rw [hw]; exact alookup_ainsert_self d _ (c + 1))
            exact ⟨m', hm', by omega⟩
          · refine ih _ _ _ w m ?_
            rw [alookup_ainsert_ne d _ w (c + 1) hw]
            exact hm
        · rw [relaxEdges_cons_worse vis v c e es d p h current hvis hlook hb]
          exact ih d p h w m hm

theorem relax_dist_new (vis : List Graphid) (v : Graphid) (c : Nat) :
    ∀ (E0 : List Edge) (d : List (Graphid × Nat))
      (p : List (Graphid × (Graphid × Edge))) (h : List DijkstraNode),
      ∀ w m', alookup (relaxEdges vis v c E0 (d, p, h)).1 w = some m' →
        alookup d w = some m' ∨
          (m' = c + 1 ∧ w ∉ vis ∧ ∃ e, e ∈ E0 ∧ e.«end» = w) := by
  intro E0
  induction E0 with
  | nil =>
    intro d p h w m' hm'
    rw [relaxEdges_nil] at hm'
    exact Or.inl hm'
  | cons e es ih =>
    intro d p h w m' hm'
    by_cases hvis : e.«end» ∈ vis
    · rw [relaxEdges_cons_skip vis v c e es d p h hvis] at hm'
      rcases ih d p h w m' hm' with hold | ⟨h1, h2, e', h3, h4⟩
      · exact Or.inl hold
      · exact Or.inr ⟨h1, h2, e', List.mem_cons_of_mem e h3, h4⟩
    · have hstep : ∀ (d₁ : List (Graphid × Nat))
          (p₁ : List (Graphid × (Graphid × Edge))) (h₁ : List DijkstraNode),
          d₁ = ainsert d e.«end» (c + 1) →
          alookup (relaxEdges vis v c es (d₁, p₁, h₁)).1 w = some m' →
          alookup d w = some m' ∨
            (m' = c + 1 ∧ w ∉ vis ∧ ∃ e', e' ∈ e :: es ∧ e'.«end» = w) := by
        intro d₁ p₁ h₁ hd₁ hm₁
        rcases ih d₁ p₁ h₁ w m' hm₁ with hold | ⟨h1, h2, e', h3, h4⟩
        · subst hd₁
          by_cases hw : w = e.«end»
          · subst hw
            rw [alookup_ainsert_self d _ (c + 1)] at hold
            exact Or.inr ⟨(Option.some_inj.mp hold).symm, hvis, e, by simp⟩
          · rw [alookup_ainsert_ne d _ w (c + 1) hw] at hold
            exact Or.inl hold
        · exact Or.inr ⟨h1, h2, e', List.mem_cons_of_mem e h3, h4⟩
      cases hlook : alookup d e.«end» with
      | none =>
        rw [relaxEdges_cons_fresh vis v c e es d p h hvis hlook] at hm'
        exact hstep _ _ _ rfl hm'
      | some current =>
        by_cases hb : c + 1 < current
        · rw [relaxEdges_cons_better vis v c e es d p h current hvis hlook hb] at hm'
          exact hstep _ _ _ rfl hm'
        · rw [relaxEdges_cons_worse vis v c e es d p h current hvis hlook hb] at hm'
          rcases ih d p h w m' hm' with hold | ⟨h1, h2, e', h3, h4⟩
          · exact Or.inl hold
          · exact Or.inr ⟨h1, h2, e', List.mem_cons_of_mem e h3, h4⟩

/-- The predecessor-map invariant of the search: every recorded predecessor
edge lies in the graph, links its parent to its key, has a visited parent,
and its key's distance is the parent's distance plus one. -/
def PredOk (g : GraphState) (vis : List Graphid) (d : List (Graphid × Nat))
    (p : List (Graphid × (Graphid × Edge))) : Prop :=
  ∀ w pv e, alookup p w = some (pv, e) →
    e ∈ g.edges ∧ e.start = pv ∧ e.«end» = w ∧ pv ∈ vis ∧
      ∃ np nv, alookup d pv = some np ∧ alookup d w = some nv ∧ nv = np + 1

theorem relax_fresh (vis : List Graphid) (v : Graphid) (c : Nat) :
    ∀ (E0 : List Edge) (d : List (Graphid × Nat))
      (p : List (Graphid × (Graphid × Edge))) (h : List DijkstraNode),
      (∀ w m, w ∉ vis → alookup d w = some m → DijkstraNode.mk w m ∈ h) →
      ∀ w m', w ∉ vis → alookup (relaxEdges vis v c E0 (d, p, h)).1 w = some m' →
        DijkstraNode.mk w m' ∈ (relaxEdges vis v c E0 (d, p, h)).2.2 := by
  intro E0
  induction E0 with
  | nil =>
    intro d p h hpre w m' hw hm'
    rw [relaxEdges_nil] at hm' ⊢
    exact hpre w m' hw hm'
  | cons e es ih =>
    intro d p h hpre w m' hw hm'
    by_cases hvis : e.«end» ∈ vis
    · rw [relaxEdges_cons_skip vis v c e es d p h hvis] at hm' ⊢
      exact ih d p h hpre w m' hw hm'
    · have hstep : ∀ h₁, h₁ = h ++ [⟨e.«end», c + 1⟩] →
          (∀ w' m, w' ∉ vis → alookup (ainsert d e.«end» (c + 1)) w' = some m →
            DijkstraNode.mk w' m ∈ h₁) := by
        intro h₁ hh₁ w' m hw' hm
        by_cases hwe : w' = e.«end»
        · subst hwe
          rw [alookup_ainsert_self] at hm
          cases hm
          rw [hh₁]
          simp
        · rw [alookup_ainsert_ne d _ w' (c + 1) hwe] at hm
          rw [hh₁]
          exact List.mem_append_left _ (hpre w' m hw' hm)
      cases hlook : alookup d e.«end» with
      | none =>
        rw [relaxEdges_cons_fresh vis v c e es d p h hvis hlook] at hm' ⊢
        exact ih _ _ _ (hstep _ rfl) w m' hw hm'
      | some current =>
        by_cases hb : c + 1 < current
        · rw [relaxEdges_cons_better vis v c e es d p h current hvis hlook hb] at hm' ⊢
          exact ih _ _ _ (hstep _ rfl) w m' hw hm'
        · rw [relaxEdges_cons_worse vis v c e es d p h current hvis hlook hb] at hm' ⊢
          exact ih d p h hpre w m' hw hm'

theorem relax_dominated (vis : List Graphid) (v : Graphid) (c : Nat) :
    ∀ (E0 : List Edge) (d : List (Graphid × Nat))
      (p : List (Graphid × (Graphid × Edge))) (h : List DijkstraNode),
      (∀ nd ∈ h, ∃ n, alookup d nd.vertex = some n ∧ n ≤ nd.cost) →
      ∀ nd ∈ (relaxEdges vis v c E0 (d, p, h)).2.2,
        ∃ n, alookup (relaxEdges vis v c E0 (d, p, h)).1 nd.vertex = some n ∧
          n ≤ nd.cost := by
  intro E0
  induction E0 with
  | nil =>
    intro d p h hpre nd hnd
    rw [relaxEdges_nil] at hnd ⊢
    exact hpre nd hnd
  | cons e es ih =>
    intro d p h hpre nd hnd
    by_cases hvis : e.«end» ∈ vis
    · rw [relaxEdges_cons_skip vis v c e es d p h hvis] at hnd ⊢
      exact ih d p h hpre nd hnd
    · cases hlook : alookup d e.«end» with
      | none =>
        rw [relaxEdges_cons_fresh vis v c e es d p h hvis hlook] at hnd ⊢
        refine ih _ _ _ ?_ nd hnd
        intro nd' hnd'
        rcases List.mem_append.mp hnd' with hold | hnew
        · obtain ⟨n, hn, hle⟩ := hpre nd' hold
          by_cases hv : nd'.vertex = e.«end»
          · rw [hv, hlook] at hn
            exact Option.noConfusion hn
          · rw [alookup_ainsert_ne d _ _ (c + 1) hv]
            exact ⟨n, hn, hle⟩
        · rw [List.mem_singleton.mp hnew]
          exact ⟨c + 1, alookup_ainsert_self d _ (c + 1), Nat.le_refl _⟩
      | some current =>
        by_cases hb : c + 1 < current
        · rw [relaxEdges_cons_better vis v c e es d p h current hvis hlook hb] at hnd ⊢
          refine ih _ _ _ ?_ nd hnd
          intro nd' hnd'
          rcases List.mem_append.mp hnd' with hold | hnew
          · obtain ⟨n, hn, hle⟩ := hpre nd' hold
            by_cases hv : nd'.vertex = e.«end»
            · rw [hv, hlook] at hn
              have hnc : current = n := Option.some_inj.mp hn
              rw [hv]
              refine ⟨c + 1, alookup_ainsert_self d _ (c + 1), ?_⟩
              omega
            · rw [alookup_ainsert_ne d _ _ (c + 1) hv]
              exact ⟨n, hn, hle⟩
          · rw [List.mem_singleton.mp hnew]
            exact ⟨c + 1, alookup_ainsert_self d _ (c + 1), Nat.le_refl _⟩
        · rw [relaxEdges_cons_worse vis v c e es d p h current hvis hlook hb] at hnd ⊢
          exact ih d p h hpre nd hnd

theorem relax_end_le (vis : List Graphid) (v : Graphid) (c : Nat) :
    ∀ (E0 : List Edge) (d : List (Graphid × Nat))
      (p : List (Graphid × (Graphid × Edge))) (h : List DijkstraNode),
      ∀ e ∈ E0, e.«end» ∉ vis →
        ∃ m', alookup (relaxEdges vis v c E0 (d, p, h)).1 e.«end» = some m' ∧
          m' ≤ c + 1 := by
  intro E0
  induction E0 with
  | nil =>
    intro d p h e hmem
    simp at hmem
  | cons e' es ih =>
    intro d p h e hmem hnvis
    rcases List.mem_cons.mp hmem with hhead | htail
    · subst hhead
      by_cases hvis : e.«end» ∈ vis
      · exact absurd hvis hnvis
      · cases hlook : alookup d e.«end» with
        | none =>
          rw [relaxEdges_cons_fresh vis v c e es d p h hvis hlook]
          obtain ⟨m', hm', hle⟩ := relax_dist_le vis v c es
            (ainsert d e.«end» (c + 1)) (ainsert p e.«end» (v, e))
            (h ++ [⟨e.«end», c + 1⟩]) e.«end» (c + 1)
            (alookup_ainsert_self d _ (c + 1))
          exact ⟨m', hm', hle⟩
        | some current =>
          by_cases hb : c + 1 < current
          · rw [relaxEdges_cons_better vis v c e es d p h current hvis hlook hb]
            obtain ⟨m', hm', hle⟩ := relax_dist_le vis v c es
              (ainsert d e.«end» (c + 1)) (ainsert p e.«end» (v, e))
              (h ++ [⟨e.«end», c + 1⟩]) e.«end» (c + 1)
              (alookup_ainsert_self d _ (c + 1))
            exact ⟨m', hm', hle⟩
          · rw [relaxEdges_cons_worse vis v c e es d p h current hvis hlook hb]
            obtain ⟨m', hm', hle⟩ := relax_dist_le vis v c es d p h e.«end» current hlook
            exact ⟨m', hm', by omega⟩
    · by_cases hvis : e'.«end» ∈ vis
      · rw [relaxEdges_cons_skip vis v c e' es d p h hvis]
        exact ih d p h e htail hnvis
      · cases hlook : alookup d e'.«end» with
        | none =>
          rw [relaxEdges_cons_fresh vis v c e' es d p h hvis hlook]
          exact ih _ _ _ e htail hnvis
        | some current =>
          by_cases hb : c + 1 < current
          · rw [relaxEdges_cons_better vis v c e' es d p h current hvis hlook hb]
            exact ih _ _ _ e htail hnvis
          · rw [relaxEdges_cons_worse vis v c e' es d p h current hvis hlook hb]
            exact ih d p h e htail hnvis

theorem relax_pred_isSome (vis : List Graphid) (v : Graphid) (c : Nat) :
    ∀ (E0 : List Edge) (d : List (Graphid × Nat))
      (p : List (Graphid × (Graphid × Edge))) (h : List DijkstraNode),
      ∀ w, (alookup p w).isSome →
        (alookup (relaxEdges vis v c E0 (d, p, h)).2.1 w).isSome := by
  intro E0
  induction E0 with
  | nil =>
    intro d p h w hw
    rw [relaxEdges_nil]
    exact hw
  | cons e es ih =>
    intro d p h w hw
    by_cases hvis : e.«end» ∈ vis
    · rw [relaxEdges_cons_skip vis v c e es d p h hvis]
      exact ih d p h w hw
    · have hstep : (alookup (ainsert p e.«end» (v, e)) w).isSome := by
        by_cases hwe : w = e.«end»
        · rw [hwe, alookup_ainsert_self]
          rfl
        · rw [alookup_ainsert_ne p _ w (v, e) hwe]
          exact hw
      cases hlook : alookup d e.«end» with
      | none =>
        rw [relaxEdges_cons_fresh vis v c e es d p h hvis hlook]
        exact ih _ _ _ w hstep
      | some current =>
        by_cases hb : c + 1 < current
        · rw [relaxEdges_cons_better vis v c e es d p h current hvis hlook hb]
          exact ih _ _ _ w hstep
        · rw [relaxEdges_cons_worse vis v c e es d p h current hvis hlook hb]
          exact ih d p h w hw

theorem relax_dist_pred (vis : List Graphid) (v : Graphid) (c : Nat) :
    ∀ (E0 : List Edge) (d : List (Graphid × Nat))
      (p : List (Graphid × (Graphid × Edge))) (h : List DijkstraNode),
      ∀ w m', alookup (relaxEdges vis v c E0 (d, p, h)).1 w = some m' →
        alookup d w = some m' ∨
          (alookup (relaxEdges vis v c E0 (d, p, h)).2.1 w).isSome := by
  intro E0
  induction E0 with
  | nil =>
    intro d p h w m' hm'
    rw [relaxEdges_nil] at hm' ⊢
    exact Or.inl hm'
  | cons e es ih =>
    intro d p h w m' hm'
    by_cases hvis : e.«end» ∈ vis
    · rw [relaxEdges_cons_skip vis v c e es d p h hvis] at hm' ⊢
      exact ih d p h w m' hm'
    · have hstep : ∀ (h₁ : List DijkstraNode),
          alookup (relaxEdges vis v c es
            (ainsert d e.«end» (c + 1), ainsert p e.«end» (v, e), h₁)).1 w = some m' →
          alookup d w = some m' ∨
            (alookup (relaxEdges vis v c es
              (ainsert d e.«end» (c + 1), ainsert p e.«end» (v, e), h₁)).2.1 w).isSome := by
        intro h₁ hm₁
        rcases ih _ _ h₁ w m' hm₁ with hold | hsome
        · by_cases hwe : w = e.«end»
          · refine Or.inr (relax_pred_isSome vis v c es _ _ h₁ w ?_)
            rw [hwe, alookup_ainsert_self]
            rfl
          · rw [alookup_ainsert_ne d _ w (c + 1) hwe] at hold
            exact Or.inl hold
        · exact Or.inr hsome
      cases hlook : alookup d e.«end» with
      | none =>
        rw [relaxEdges_cons_fresh vis v c e es d p h hvis hlook] at hm' ⊢
        exact hstep _ hm'
      | some current =>
        by_cases hb : c + 1 < current
        · rw [relaxEdges_cons_better vis v c e es d p h current hvis hlook hb] at hm' ⊢
          exact hstep _ hm'
        · rw [relaxEdges_cons_worse vis v c e es d p h current hvis hlook hb] at hm' ⊢
          exact ih d p h w m' hm'

theorem relax_predOk (g : GraphState) (vis : List Graphid) (v : Graphid)
    (c : Nat) :
    ∀ (E0 : List Edge) (d : List (Graphid × Nat))
      (p : List (Graphid × (Graphid × Edge))) (h : List DijkstraNode),
      PredOk g vis d p →
      (∀ e ∈ E0, e ∈ g.edges ∧ e.start = v) →
      v ∈ vis → alookup d v = some c →
      PredOk g vis (relaxEdges vis v c E0 (d, p, h)).1
        (relaxEdges vis v c E0 (d, p, h)).2.1 := by
  intro E0
  induction E0 with
  | nil =>
    intro d p h hpred _ _ _
    rw [relaxEdges_nil]
    exact hpred
  | cons e es ih =>
    intro d p h hpred hE hvvis hvc
    have hE' : ∀ e' ∈ es, e' ∈ g.edges ∧ e'.start = v :=
      fun e' he' => hE e' (List.mem_cons_of_mem e he')
    by_cases hvis : e.«end» ∈ vis
    · rw [relaxEdges_cons_skip vis v c e es d p h hvis]
      exact ih d p h hpred hE' hvvis hvc
    · have hvne : v ≠ e.«end» := fun hc => hvis (hc ▸ hvvis)
      have hstep : PredOk g vis (ainsert d e.«end» (c + 1))
          (ainsert p e.«end» (v, e)) ∧
          alookup (ainsert d e.«end» (c + 1)) v = some c := by
        refine ⟨?_, ?_⟩
        · intro w pv e' hw
          by_cases hwe : w = e.«end»
          · rw [hwe, alookup_ainsert_self] at hw
            have hpe : (v, e) = (pv, e') := Option.some_inj.mp hw
            have hpv : v = pv := congrArg Prod.fst hpe
            have he' : e = e' := congrArg Prod.snd hpe
            rw [← hpv, ← he']
            refine ⟨(hE e (by simp)).1, (hE e (by simp)).2, ?_, hvvis,
              c, c + 1, ?_, ?_, rfl⟩
            · exact hwe.symm
            · rw [alookup_ainsert_ne d _ v (c + 1) hvne]
              exact hvc
            · rw [hwe]
              exact alookup_ainsert_self d _ (c + 1)
          · rw [alookup_ainsert_ne p _ w (v, e) hwe] at hw
            obtain ⟨h1, h2, h3, h4, np, nv, h5, h6, h7⟩ := hpred w pv e' hw
            have hpvne : pv ≠ e.«end» := fun hc => hvis (hc ▸ h4)
            refine ⟨h1, h2, h3, h4, np, nv, ?_, ?_, h7⟩
            · rw [alookup_ainsert_ne d _ pv (c + 1) hpvne]
              exact h5
            · rw [alookup_ainsert_ne d _ w (c + 1) hwe]
              exact h6
        · rw [alookup_ainsert_ne d _ v (c + 1) hvne]
          exact hvc
      cases hlook : alookup d e.«end» with
      | none =>
        rw [relaxEdges_cons_fresh vis v c e es d p h hvis hlook]
        exact ih _ _ _ hstep.1 hE' hvvis hstep.2
      | some current =>
        by_cases hb : c + 1 < current
        · rw [relaxEdges_cons_better vis v c e es d p h current hvis hlook hb]
          exact ih _ _ _ hstep.1 hE' hvvis hstep.2
        · rw [relaxEdges_cons_worse vis v c e es d p h current hvis hlook hb]
          exact ih d p h hpred hE' hvvis hvc

theorem relax_heap_new (vis : List Graphid) (v : Graphid) (c : Nat) :
    ∀ (E0 : List Edge) (d : List (Graphid × Nat))
      (p : List (Graphid × (Graphid × Edge))) (h : List DijkstraNode),
      ∀ nd ∈ (relaxEdges vis v c E0 (d, p, h)).2.2, nd ∈ h ∨ nd.cost = c + 1 := by
  intro E0
  induction E0 with
  | nil =>
    intro d p h nd hnd
    rw [relaxEdges_nil] at hnd
    exact Or.inl hnd
  | cons e es ih =>
    intro d p h nd hnd
    by_cases hvis : e.«end» ∈ vis
    · rw [relaxEdges_cons_skip vis v c e es d p h hvis] at hnd
      exact ih d p h nd hnd
    · have hstep : ∀ d₁ p₁, nd ∈ (relaxEdges vis v c es
          (d₁, p₁, h ++ [⟨e.«end», c + 1⟩])).2.2 → nd ∈ h ∨ nd.cost = c + 1 := by
        intro d₁ p₁ hnd₁
        rcases ih d₁ p₁ _ nd hnd₁ with hmem | hc
        · rcases List.mem_append.mp hmem with hold | hnew
          · exact Or.inl hold
          · rw [List.mem_singleton.mp hnew]
            exact Or.inr rfl
        · exact Or.inr hc
      cases hlook : alookup d e.«end» with
      | none =>
        rw [relaxEdges_cons_fresh vis v c e es d p h hvis hlook] at hnd
        exact hstep _ _ hnd
      | some current =>
        by_cases hb : c + 1 < current
        · rw [relaxEdges_cons_better vis v c e es d p h current hvis hlook hb] at hnd
          exact hstep _ _ hnd
        · rw [relaxEdges_cons_worse vis v c e es d p h current hvis hlook hb] at hnd
          exact ih d p h nd hnd

theorem mem_get_outgoing_edges (g : GraphState) (v : Graphid) (e : Edge) :
    e ∈ g.get_outgoing_edges v ↔ e ∈ g.edges ∧ e.start = v := by
  simp [GraphState.get_outgoing_edges, List.mem_filter]

theorem countP_add_of_pointwise {α : Type} (l : List α) (p q r : α → Bool)
    (hpt : ∀ x ∈ l, (if p x then 1 else 0) + (if q x then 1 else 0) =
      (if r x then 1 else 0 : Nat)) :
    l.countP p + l.countP q = l.countP r := by
  induction l with
  | nil => simp
  | cons a t ih =>
    rw [List.countP_cons, List.countP_cons, List.countP_cons]
    have h := hpt a (by simp)
    have ht := ih (fun x hx => hpt x (List.mem_cons_of_mem a hx))
    omega

theorem length_get_outgoing_edges (g : GraphState) (v : Graphid)
    (vis : List Graphid) (hv : v ∉ vis) :
    (g.edges.filter (fun e => decide (e.start ∉ v :: vis))).length +
      (g.get_outgoing_edges v).length =
      (g.edges.filter (fun e => decide (e.start ∉ vis))).length := by
  unfold GraphState.get_outgoing_edges
  rw [← List.countP_eq_length_filter, ← List.countP_eq_length_filter,
    ← List.countP_eq_length_filter]
  refine countP_add_of_pointwise g.edges _ _ _ ?_
  intro e _
  by_cases hsv : e.start = v
  · simp [hsv, hv]
  · by_cases hevis : e.start ∈ vis
    · simp [hsv, hevis]
    · simp [hsv, hevis]

theorem alookup_singleton {β : Type} (a w : Graphid) (b : β) :
    alookup [(a, b)] w = if w = a then some b else none := by
  unfold alookup
  by_cases hw : w = a
  · rw [List.find?_cons_of_pos _ (by simp [hw])]
    simp [hw]
  · rw [List.find?_cons_of_neg _ (by
      simp only [decide_eq_true_eq]
      intro hc
      exact hw hc.symm)]
    simp [hw]

/-- The loop invariant of `dijkstra` over its mutable state: heap `h`,
distance map `d`, predecessor map `p` and visited list `vis`, searching from
`s` in graph `g`. -/
structure DNInv (g : GraphState) (s : Graphid) (h : List DijkstraNode)
    (d : List (Graphid × Nat)) (p : List (Graphid × (Graphid × Edge)))
    (vis : List Graphid) : Prop where
  start0 : alookup d s = some 0
  zero_s : ∀ w, alookup d w = some 0 → w = s
  realizable : ∀ w n, alookup d w = some n →
    ∃ es, chainOk g.edges s es w ∧ es.length = n
  vopt : ∀ w ∈ vis, ∃ n, alookup d w = some n ∧
    ∀ es, chainOk g.edges s es w → n ≤ es.length
  erelax : ∀ v ∈ vis, ∀ e ∈ g.edges, e.start = v →
    ∃ nv n, alookup d v = some nv ∧ alookup d e.«end» = some n ∧ n ≤ nv + 1
  fresh : ∀ w n, w ∉ vis → alookup d w = some n → DijkstraNode.mk w n ∈ h
  dom : ∀ nd ∈ h, ∃ n, alookup d nd.vertex = some n ∧ n ≤ nd.cost
  vle : ∀ w ∈ vis, ∀ nd ∈ h, ∃ nw, alookup d w = some nw ∧ nw ≤ nd.cost
  pok : PredOk g vis d p
  ptot : ∀ w n, alookup d w = some n → w = s ∨ (alookup p w).isSome

theorem DNInv_init (g : GraphState) (s : Graphid) :
    DNInv g s [⟨s, 0⟩] [(s, 0)] [] [] := by
  have hself : alookup [(s, (0 : Nat))] s = some 0 := by
    rw [alookup_singleton]
    simp
  refine ⟨hself, ?_, ?_, ?_, ?_, ?_, ?_, ?_, ?_, ?_⟩
  · intro w hw
    rw [alookup_singleton] at hw
    by_cases hws : w = s
    · exact hws
    · rw [if_neg hws] at hw
      exact Option.noConfusion hw
  · intro w n hw
    rw [alookup_singleton] at hw
    by_cases hws : w = s
    · subst hws
      rw [if_pos rfl] at hw
      cases hw
      exact ⟨[], rfl, rfl⟩
    · rw [if_neg hws] at hw
      exact Option.noConfusion hw
  · intro w hw
    simp at hw
  · intro v hv
    simp at hv
  · intro w n hw hlook
    rw [alookup_singleton] at hlook
    by_cases hws : w = s
    · subst hws
      rw [if_pos rfl] at hlook
      cases hlook
      simp
    · rw [if_neg hws] at hlook
      exact Option.noConfusion hlook
  · intro nd hnd
    rw [List.mem_singleton.mp hnd]
    exact ⟨0, hself, Nat.le_refl 0⟩
  · intro w hw
    simp at hw
  · intro w pv e hw
    exact Option.noConfusion hw
  · intro w n hw
    rw [alookup_singleton] at hw
    by_cases hws : w = s
    · exact Or.inl hws
    · rw [if_neg hws] at hw
      exact Option.noConfusion hw

theorem frontier_aux (g : GraphState) (s : Graphid) (h : List DijkstraNode)
    (d : List (Graphid × Nat)) (p : List (Graphid × (Graphid × Edge)))
    (vis : List Graphid) (inv : DNInv g s h d p vis) :
    ∀ (es : List Edge) (a u : Graphid) (b : Nat),
      chainOk g.edges a es u → u ∉ vis → a ∈ vis → alookup d a = some b →
      ∃ f m, f ∉ vis ∧ alookup d f = some m ∧ m ≤ b + es.length := by
  intro es
  induction es with
  | nil =>
    intro a u b hchain hu ha _
    exact absurd (hchain ▸ ha) hu
  | cons e es ih =>
    intro a u b hchain hu ha hb
    obtain ⟨heg, hes, hrest⟩ := hchain
    obtain ⟨nv, n, hnv, hn, hnle⟩ := inv.erelax a ha e heg hes
    have hnvb : nv = b := by
      rw [hb] at hnv
      exact (Option.some_inj.mp hnv).symm
    by_cases hev : e.«end» ∈ vis
    · obtain ⟨f, m, hf, hm, hmle⟩ := ih e.«end» u n hrest hu hev hn
      refine ⟨f, m, hf, hm, ?_⟩
      simp only [List.length_cons]
      omega
    · refine ⟨e.«end», n, hev, hn, ?_⟩
      simp only [List.length_cons]
      omega

theorem frontier_entry (g : GraphState) (s : Graphid) (h : List DijkstraNode)
    (d : List (Graphid × Nat)) (p : List (Graphid × (Graphid × Edge)))
    (vis : List Graphid) (inv : DNInv g s h d p vis) :
    ∀ (es : List Edge) (u : Graphid), u ∉ vis → chainOk g.edges s es u →
      ∃ f m, alookup d f = some m ∧ DijkstraNode.mk f m ∈ h ∧ m ≤ es.length := by
  intro es u hu hchain
  by_cases hs : s ∈ vis
  · obtain ⟨f, m, hf, hm, hmle⟩ := frontier_aux g s h d p vis inv es s u 0
      hchain hu hs inv.start0
    exact ⟨f, m, hm, inv.fresh f m hf hm, by omega⟩
  · exact ⟨s, 0, inv.start0, inv.fresh s 0 hs inv.start0, Nat.zero_le _⟩

theorem walkPred_spec (g : GraphState) (s : Graphid) (vis : List Graphid)
    (d : List (Graphid × Nat)) (p : List (Graphid × (Graphid × Edge)))
    (h0 : alookup d s = some 0)
    (pok : PredOk g vis d p)
    (ptot : ∀ w n, alookup d w = some n → w = s ∨ (alookup p w).isSome) :
    ∀ (fuel : Nat) (w : Graphid) (n : Nat), alookup d w = some n → n < fuel →
      ∃ path edges, walkPred p s fuel w = (path, edges, n) ∧
        chainOk g.edges s edges.reverse w ∧ edges.length = n ∧
        (path ++ [s]).reverse = pathVertices s edges.reverse := by
  intro fuel
  induction fuel with
  | zero =>
    intro w n _ hn
    omega
  | succ fuel ih =>
    intro w n hw hn
    by_cases hws : w = s
    · subst hws
      have hn0 : n = 0 := by
        rw [h0] at hw
        exact (Option.some_inj.mp hw).symm
      subst hn0
      refine ⟨[], [], ?_, ?_, rfl, ?_⟩
      · unfold walkPred
        rw [if_pos rfl]
      · simp [chainOk]
      · simp [pathVertices]
    · rcases ptot w n hw with hws' | hpsome
      · exact absurd hws' hws
      obtain ⟨pr, hpe⟩ := Option.isSome_iff_exists.mp hpsome
      obtain ⟨pv, e⟩ := pr
      obtain ⟨heg, hest, heend, hpvvis, np, nv, hnp, hnv, hnpv⟩ := pok w pv e hpe
      have hnn : nv = n := by
        rw [hw] at hnv
        exact (Option.some_inj.mp hnv).symm
      have hn' : n = np + 1 := by omega
      have hnplt : np < fuel := by omega
      obtain ⟨path', edges', hwp, hchain, hlen, hvert⟩ := ih pv np hnp hnplt
      refine ⟨w :: path', e :: edges', ?_, ?_, ?_, ?_⟩
      · rw [hn']
        unfold walkPred
        rw [if_neg hws]
        simp only [hpe, hwp]
      · rw [List.reverse_cons, chainOk_append_singleton]
        refine ⟨?_, heg, heend⟩
        rw [hest]
        exact hchain
      · simp [hlen, hn']
      · have hsplit : ((w :: path') ++ [s]).reverse = (path' ++ [s]).reverse ++ [w] := by
          rw [List.cons_append, List.reverse_cons]
        rw [hsplit, hvert, List.reverse_cons]
        unfold pathVertices
        rw [List.map_append, List.map_cons, List.map_nil, heend]
        simp

theorem dist_chain_keys (g : GraphState) (s : Graphid) (vis : List Graphid)
    (d : List (Graphid × Nat)) (p : List (Graphid × (Graphid × Edge)))
    (h0 : alookup d s = some 0)
    (pok : PredOk g vis d p)
    (ptot : ∀ w n, alookup d w = some n → w = s ∨ (alookup p w).isSome) :
    ∀ (n : Nat) (w : Graphid), alookup d w = some n →
      ∃ ks : List Graphid, ks.length = n ∧ ks.Nodup ∧
        (∀ k ∈ ks, (alookup p k).isSome) ∧
        (∀ k ∈ ks, ∃ m, alookup d k = some m ∧ m ≤ n) := by
  intro n
  induction n with
  | zero =>
    intro w _
    exact ⟨[], rfl, List.nodup_nil, by simp, by simp⟩
  | succ np ih =>
    intro w hw
    have hws : w ≠ s := by
      intro hc
      rw [hc, h0] at hw
      have := Option.some_inj.mp hw
      omega
    rcases ptot w _ hw with hs | hpsome
    · exact absurd hs hws
    obtain ⟨pr, hpe⟩ := Option.isSome_iff_exists.mp hpsome
    obtain ⟨pv, e⟩ := pr
    obtain ⟨_, _, _, _, np', nv, hnp, hnv, hnpv⟩ := pok w pv e hpe
    have hnn : nv = np + 1 := by
      rw [hw] at hnv
      exact (Option.some_inj.mp hnv).symm
    have hnp'' : np' = np := by omega
    rw [hnp''] at hnp
    obtain ⟨ks, hlen, hnd, hkeys, hdists⟩ := ih pv hnp
    refine ⟨w :: ks, by simp [hlen], ?_, ?_, ?_⟩
    · refine List.nodup_cons.mpr ⟨?_, hnd⟩
      intro hwk
      obtain ⟨m, hm, hmle⟩ := hdists w hwk
      rw [hw] at hm
      have := Option.some_inj.mp hm
      omega
    · intro k hk
      rcases List.mem_cons.mp hk with hkw | hkk
      · rw [hkw, hpe]
        rfl
      · exact hkeys k hkk
    · intro k hk
      rcases List.mem_cons.mp hk with hkw | hkk
      · exact ⟨np + 1, by rw [hkw]; exact hw, Nat.le_refl _⟩
      · obtain ⟨m, hm, hmle⟩ := hdists k hkk
        exact ⟨m, hm, by omega⟩

theorem dist_le_pred_length (g : GraphState) (s : Graphid) (vis : List Graphid)
    (d : List (Graphid × Nat)) (p : List (Graphid × (Graphid × Edge)))
    (h0 : alookup d s = some 0)
    (pok : PredOk g vis d p)
    (ptot : ∀ w n, alookup d w = some n → w = s ∨ (alookup p w).isSome)
    (n : Nat) (w : Graphid) (hw : alookup d w = some n) : n ≤ p.length := by
  obtain ⟨ks, hlen, hnd, hkeys, _⟩ :=
    dist_chain_keys g s vis d p h0 pok ptot n w hw
  have hsub : ks ⊆ p.map Prod.fst :=
    fun k hk => alookup_isSome_mem p k (hkeys k hk)
  have hle := (hnd.subperm hsub).length_le
  rw [List.length_map] at hle
  omega

theorem DNInv_step (g : GraphState) (s : Graphid) (h : List DijkstraNode)
    (d : List (Graphid × Nat)) (p : List (Graphid × (Graphid × Edge)))
    (vis : List Graphid) (inv : DNInv g s h d p vis)
    (v : Graphid) (c : Nat) (rest : List DijkstraNode)
    (hpop : popMax h = some (⟨v, c⟩, rest)) (hv : v ∉ vis) :
    alookup d v = some c ∧
    (∀ es, chainOk g.edges s es v → c ≤ es.length) ∧
    DNInv g s
      (relaxEdges (v :: vis) v c (g.get_outgoing_edges v) (d, p, rest)).2.2
      (relaxEdges (v :: vis) v c (g.get_outgoing_edges v) (d, p, rest)).1
      (relaxEdges (v :: vis) v c (g.get_outgoing_edges v) (d, p, rest)).2.1
      (v :: vis) := by
  have hperm := popMax_perm h _ _ hpop
  have hmax := popMax_maximal h _ _ hpop
  have hmemh : DijkstraNode.mk v c ∈ h := hperm.mem_iff.mpr (by simp)
  obtain ⟨n, hn, hnle⟩ := inv.dom _ hmemh
  dsimp only at hn hnle
  have hfr := inv.fresh v n hv hn
  have hmem2 := hperm.mem_iff.mp hfr
  have hnc : n = c := by
    rcases List.mem_cons.mp hmem2 with hh | hr
    · exact congrArg DijkstraNode.cost hh
    · have hcn := (hmax _ hr).1
      dsimp only at hcn
      omega
  rw [hnc] at hn
  have hdv : alookup d v = some c := hn
  have hopt : ∀ es, chainOk g.edges s es v → c ≤ es.length := by
    intro es hchain
    obtain ⟨f, m, hfd, hfh, hmle⟩ := frontier_entry g s h d p vis inv es v hv hchain
    have hfm := hperm.mem_iff.mp hfh
    rcases List.mem_cons.mp hfm with hh | hr
    · have hmc := congrArg DijkstraNode.cost hh
      dsimp only at hmc
      omega
    · have hcm := (hmax _ hr).1
      dsimp only at hcm
      omega
  refine ⟨hdv, hopt, ?_⟩
  have hE0 : ∀ e ∈ g.get_outgoing_edges v, e ∈ g.edges ∧ e.start = v :=
    fun e he => (mem_get_outgoing_edges g v e).mp he
  have hvv : v ∈ v :: vis := List.mem_cons_self v vis
  have hrsub : ∀ x ∈ rest, x ∈ h :=
    fun x hx => hperm.mem_iff.mpr (List.mem_cons_of_mem _ hx)
  have hrestmin : ∀ x ∈ rest, c ≤ x.cost := fun x hx => (hmax x hx).1
  have hvisd : ∀ w ∈ vis, ∃ nw, alookup d w = some nw ∧ nw ≤ c := by
    intro w hw
    obtain ⟨nw, hnw, hnwle⟩ := inv.vle w hw _ hmemh
    exact ⟨nw, hnw, hnwle⟩
  have hdvis' := relax_dist_visited (v :: vis) v c (g.get_outgoing_edges v) d p rest
  refine ⟨?_, ?_, ?_, ?_, ?_, ?_, ?_, ?_, ?_, ?_⟩
  · obtain ⟨m', hm', hle⟩ := relax_dist_le (v :: vis) v c
      (g.get_outgoing_edges v) d p rest s 0 inv.start0
    have : m' = 0 := Nat.le_zero.mp hle
    rw [← this]
    exact hm'
  · intro w hw
    rcases relax_dist_new (v :: vis) v c (g.get_outgoing_edges v) d p rest w 0 hw
      with hold | ⟨hc, _, _⟩
    · exact inv.zero_s w hold
    · omega
  · intro w n' hw
    rcases relax_dist_new (v :: vis) v c (g.get_outgoing_edges v) d p rest w n' hw
      with hold | ⟨hc, hwnv, e, heE0, heend⟩
    · exact inv.realizable w n' hold
    · obtain ⟨es, hches, hlenes⟩ := inv.realizable v c hdv
      refine ⟨es ++ [e], ?_, ?_⟩
      · rw [chainOk_append_singleton]
        refine ⟨?_, (hE0 e heE0).1, heend⟩
        rw [(hE0 e heE0).2]
        exact hches
      · rw [List.length_append, List.length_cons, List.length_nil]
        omega
  · intro w hw
    rcases List.mem_cons.mp hw with hwv | hwvis
    · refine ⟨c, ?_, ?_⟩
      · rw [hwv, hdvis' v hvv]
        exact hdv
      · rw [hwv]
        exact hopt
    · obtain ⟨n', hn', hbound⟩ := inv.vopt w hwvis
      refine ⟨n', ?_, hbound⟩
      rw [hdvis' w (List.mem_cons_of_mem v hwvis)]
      exact hn'
  · intro v' hv' e heg hest
    rcases List.mem_cons.mp hv' with hvv' | hvvis
    · have hdv' : alookup
          (relaxEdges (v :: vis) v c (g.get_outgoing_edges v) (d, p, rest)).1 v' =
          some c := by
        rw [hvv', hdvis' v hvv]
        exact hdv
      have heE0 : e ∈ g.get_outgoing_edges v :=
        (mem_get_outgoing_edges g v e).mpr ⟨heg, by rw [hest, hvv']⟩
      by_cases hend : e.«end» ∈ v :: vis
      · rcases List.mem_cons.mp hend with hendv | hendvis
        · refine ⟨c, c, hdv', ?_, by omega⟩
          rw [hendv, hdvis' v hvv]
          exact hdv
        · obtain ⟨nw, hnw, hnwle⟩ := hvisd _ hendvis
          refine ⟨c, nw, hdv', ?_, by omega⟩
          rw [hdvis' _ (List.mem_cons_of_mem v hendvis)]
          exact hnw
      · obtain ⟨m', hm', hle⟩ := relax_end_le (v :: vis) v c
          (g.get_outgoing_edges v) d p rest e heE0 hend
        exact ⟨c, m', hdv', hm', hle⟩
    · obtain ⟨nv0, n0, hnv0, hn0, hn0le⟩ := inv.erelax v' hvvis e heg hest
      obtain ⟨n1, hn1, hn1le⟩ := relax_dist_le (v :: vis) v c
        (g.get_outgoing_edges v) d p rest e.«end» n0 hn0
      refine ⟨nv0, n1, ?_, hn1, by omega⟩
      rw [hdvis' v' (List.mem_cons_of_mem v hvvis)]
      exact hnv0
  · refine relax_fresh (v :: vis) v c (g.get_outgoing_edges v) d p rest ?_
    intro w m hw hm
    have hwvis : w ∉ vis := fun hc => hw (List.mem_cons_of_mem v hc)
    have hwv : w ≠ v := fun hc => hw (hc ▸ hvv)
    have hmem := hperm.mem_iff.mp (inv.fresh w m hwvis hm)
    rcases List.mem_cons.mp hmem with hh | hr
    · exact absurd (congrArg DijkstraNode.vertex hh) hwv
    · exact hr
  · refine relax_dominated (v :: vis) v c (g.get_outgoing_edges v) d p rest ?_
    intro nd hnd
    exact inv.dom nd (hrsub nd hnd)
  · intro w hw nd hnd
    have hdw : ∃ nw, alookup
        (relaxEdges (v :: vis) v c (g.get_outgoing_edges v) (d, p, rest)).1 w =
        some nw ∧ nw ≤ c := by
      rcases List.mem_cons.mp hw with hwv | hwvis
      · refine ⟨c, ?_, Nat.le_refl c⟩
        rw [hwv, hdvis' v hvv]
        exact hdv
      · obtain ⟨nw, hnw, hnwle⟩ := hvisd w hwvis
        refine ⟨nw, ?_, hnwle⟩
        rw [hdvis' w (List.mem_cons_of_mem v hwvis)]
        exact hnw
    obtain ⟨nw, hnw, hnwle⟩ := hdw
    rcases relax_heap_new (v :: vis) v c (g.get_outgoing_edges v) d p rest nd hnd
      with hmem | hcost
    · have hcnd := hrestmin nd hmem
      exact ⟨nw, hnw, by omega⟩
    · exact ⟨nw, hnw, by omega⟩
  · have hpok' : PredOk g (v :: vis) d p := by
      intro w pv e hw
      obtain ⟨h1, h2, h3, h4, h5⟩ := inv.pok w pv e hw
      exact ⟨h1, h2, h3, List.mem_cons_of_mem _ h4, h5⟩
    exact relax_predOk g (v :: vis) v c (g.get_outgoing_edges v) d p rest
      hpok' hE0 hvv hdv
  · intro w n' hw
    rcases relax_dist_pred (v :: vis) v c (g.get_outgoing_edges v) d p rest w n' hw
      with hold | hsome
    · rcases inv.ptot w n' hold with hs | hps
      · exact Or.inl hs
      · exact Or.inr (relax_pred_isSome (v :: vis) v c
          (g.get_outgoing_edges v) d p rest w hps)
    · exact Or.inr hsome

theorem dijkstraLoop_correct (g : GraphState) (s t : Graphid) :
    ∀ (fuel : Nat) (h : List DijkstraNode) (d : List (Graphid × Nat))
      (p : List (Graphid × (Graphid × Edge))) (vis : List Graphid),
      DNInv g s h d p vis → t ∉ vis →
      h.length + (g.edges.filter (fun e => decide (e.start ∉ vis))).length < fuel →
      (∀ r, dijkstraLoop g s t fuel h d p vis = some (.ok r) →
          chainOk g.edges s r.edges t ∧ r.edges.length = r.cost ∧
          r.path = pathVertices s r.edges ∧
          ∀ es, chainOk g.edges s es t → r.cost ≤ es.length) ∧
      (dijkstraLoop g s t fuel h d p vis = some (.error (.pathNotFound s t)) →
          ¬ ∃ es, chainOk g.edges s es t) ∧
      dijkstraLoop g s t fuel h d p vis ≠ none ∧
      (∀ err, dijkstraLoop g s t fuel h d p vis = some (.error err) →
          err = .pathNotFound s t) := by
  intro fuel
  induction fuel with
  | zero =>
    intro h d p vis _ _ hfu
    omega
  | succ fuel ih =>
    intro h d p vis inv ht hfu
    cases hpop : popMax h with
    | none =>
      have hhe : h = [] := by
        cases h with
        | nil => rfl
        | cons a t' => exact absurd hpop (popMax_ne_none a t')
      have hres : dijkstraLoop g s t (fuel + 1) h d p vis =
          some (.error (.pathNotFound s t)) := by
        conv_lhs => unfold dijkstraLoop
        rw [hpop]
      refine ⟨?_, ?_, ?_, ?_⟩
      · intro r hr
        rw [hres] at hr
        exact absurd (Option.some_inj.mp hr) (by simp)
      · intro _
        rintro ⟨es, hchain⟩
        obtain ⟨f, m, _, hfh, _⟩ := frontier_entry g s h d p vis inv es t ht hchain
        rw [hhe] at hfh
        simp at hfh
      · rw [hres]
        simp
      · intro err herr
        rw [hres] at herr
        exact (Except.error.inj (Option.some_inj.mp herr)).symm
    | some pr =>
      obtain ⟨⟨v, c⟩, rest⟩ := pr
      have hlenr : h.length = rest.length + 1 := by
        have hpl := (popMax_perm h _ _ hpop).length_eq
        simp at hpl
        omega
      by_cases hvvis : v ∈ vis
      · have hres : dijkstraLoop g s t (fuel + 1) h d p vis =
            dijkstraLoop g s t fuel rest d p vis := by
          conv_lhs => unfold dijkstraLoop
          rw [hpop]
          simp only [if_pos hvvis]
        have inv' : DNInv g s rest d p vis := by
          refine ⟨inv.start0, inv.zero_s, inv.realizable, inv.vopt, inv.erelax,
            ?_, ?_, ?_, inv.pok, inv.ptot⟩
          · intro w m hw hm
            have hmem := (popMax_perm h _ _ hpop).mem_iff.mp (inv.fresh w m hw hm)
            rcases List.mem_cons.mp hmem with hh | hr
            · have hwv : w = v := congrArg DijkstraNode.vertex hh
              exact absurd (hwv ▸ hvvis) hw
            · exact hr
          · intro nd hnd
            exact inv.dom nd
              ((popMax_perm h _ _ hpop).mem_iff.mpr (List.mem_cons_of_mem _ hnd))
          · intro w hw nd hnd
            exact inv.vle w hw nd
              ((popMax_perm h _ _ hpop).mem_iff.mpr (List.mem_cons_of_mem _ hnd))
        have hfu' : rest.length +
            (g.edges.filter (fun e => decide (e.start ∉ vis))).length < fuel := by
          omega
        rw [hres]
        exact ih rest d p vis inv' ht hfu'
      · by_cases hvt : v = t
        · obtain ⟨hdv, hopt, _⟩ := DNInv_step g s h d p vis inv v c rest hpop hvvis
          have hres : dijkstraLoop g s t (fuel + 1) h d p vis =
              some (.ok (reconstruct_path s t p)) := by
            conv_lhs => unfold dijkstraLoop
            rw [hpop]
            simp only [if_neg hvvis, if_pos hvt]
          have hc_le : c ≤ p.length :=
            dist_le_pred_length g s vis d p inv.start0 inv.pok inv.ptot c v hdv
          obtain ⟨path, edges, hwp, hchain, hlen, hvert⟩ :=
            walkPred_spec g s vis d p inv.start0 inv.pok inv.ptot
              (p.length + 1) v c hdv (by omega)
          have hrec : reconstruct_path s t p =
              ⟨(path ++ [s]).reverse, c, edges.reverse⟩ := by
            unfold reconstruct_path
            rw [← hvt, hwp]
          refine ⟨?_, ?_, ?_, ?_⟩
          · intro r hr
            rw [hres] at hr
            have hr' := Except.ok.inj (Option.some_inj.mp hr)
            rw [← hr', hrec]
            dsimp only
            refine ⟨?_, ?_, hvert, ?_⟩
            · rw [← hvt]
              exact hchain
            · rw [List.length_reverse]
              exact hlen
            · intro es hches
              refine hopt es ?_
              rw [hvt]
              exact hches
          · intro herr
            rw [hres] at herr
            exact absurd (Option.some_inj.mp herr) (by simp)
          · rw [hres]
            simp
          · intro err herr
            rw [hres] at herr
            exact absurd (Option.some_inj.mp herr) (by simp)
        · obtain ⟨hdv, hopt, inv'⟩ := DNInv_step g s h d p vis inv v c rest hpop hvvis
          have hres : dijkstraLoop g s t (fuel + 1) h d p vis =
              dijkstraLoop g s t fuel
                (relaxEdges (v :: vis) v c (g.get_outgoing_edges v) (d, p, rest)).2.2
                (relaxEdges (v :: vis) v c (g.get_outgoing_edges v) (d, p, rest)).1
                (relaxEdges (v :: vis) v c (g.get_outgoing_edges v) (d, p, rest)).2.1
                (v :: vis) := by
            conv_lhs => unfold dijkstraLoop
            rw [hpop]
            simp only [if_neg hvvis, if_neg hvt]
          have ht' : t ∉ v :: vis := by
            intro hc
            rcases List.mem_cons.mp hc with h1 | h2
            · exact hvt h1.symm
            · exact ht h2
          have hfu' :
              (relaxEdges (v :: vis) v c (g.get_outgoing_edges v) (d, p, rest)).2.2.length +
                (g.edges.filter (fun e => decide (e.start ∉ v :: vis))).length < fuel := by
            have hhl := relax_heap_len (v :: vis) v c (g.get_outgoing_edges v) d p rest
            have hfl := length_get_outgoing_edges g v vis hvvis
            omega
          rw [hres]
          exact ih _ _ _ _ inv' ht' hfu'

/-- C4: for every graph state and existing vertices `s` and `t`,
`shortest_path(s, t)` either returns a result whose `edges` form a directed
path from `s` to `t` in the graph, whose `cost` equals the number of those
edges and is minimal among all directed paths from `s` to `t`, and whose
`path` is the corresponding vertex sequence; or it fails with
`PathNotFound(s, t)`, which happens exactly when no directed path from `s`
to `t` exists. -/
theorem shortest_path_correct (g : GraphState) (s t : Graphid)
    (hs : (g.get_vertex s).isSome) (ht : (g.get_vertex t).isSome) :
    (∀ r, shortest_path g s t = .ok r →
        chainOk g.edges s r.edges t ∧ r.edges.length = r.cost ∧
        r.path = pathVertices s r.edges ∧
        ∀ es, chainOk g.edges s es t → r.cost ≤ es.length) ∧
    (shortest_path g s t = .error (.pathNotFound s t) ↔
        ¬ ∃ es, chainOk g.edges s es t) := by
  have hs0 : ¬ ((g.get_vertex s).isNone = true) := by
    rw [Option.isNone_iff_eq_none]
    intro hc
    rw [hc] at hs
    simp at hs
  have ht0 : ¬ ((g.get_vertex t).isNone = true) := by
    rw [Option.isNone_iff_eq_none]
    intro hc
    rw [hc] at ht
    simp at ht
  have hsp : shortest_path g s t = dijkstra g s t := by
    unfold shortest_path
    rw [if_neg hs0, if_neg ht0]
  have hmain := dijkstraLoop_correct g s t (g.edges.length + 2)
    [⟨s, 0⟩] [(s, 0)] [] [] (DNInv_init g s) (by simp) (by
      have hfl := List.length_filter_le
        (fun e => decide (e.start ∉ ([] : List Graphid))) g.edges
      simp only [List.length_singleton]
      omega)
  obtain ⟨hok, herrnp, hnn, herr⟩ := hmain
  cases hloop : dijkstraLoop g s t (g.edges.length + 2) [⟨s, 0⟩] [(s, 0)] [] [] with
  | none => exact absurd hloop hnn
  | some res =>
    have hd : dijkstra g s t = res := by
      unfold dijkstra
      rw [hloop]
    constructor
    · intro r hr
      rw [hsp, hd] at hr
      refine hok r ?_
      rw [hloop, hr]
    · constructor
      · intro he
        rw [hsp, hd] at he
        refine herrnp ?_
        rw [hloop, he]
      · intro hnp
        rw [hsp, hd]
        cases res with
        | ok r =>
          obtain ⟨hch, -, -, -⟩ := hok r (by rw [hloop])
          exact absurd ⟨r.edges, hch⟩ hnp
        | error err =>
          have herr' := herr err (by rw [hloop])
          rw [herr']

/-- Witness for C4 at spec scenario C run on the C6 example graph: the
search from vertex 1 to vertex 4 succeeds with a realizing minimal path. -/
theorem shortest_path_correct_witness :
    ∃ r, shortest_path c6Graph ⟨1⟩ ⟨4⟩ = Except.ok r ∧
      chainOk c6Graph.edges ⟨1⟩ r.edges ⟨4⟩ ∧ r.edges.length = r.cost ∧
      r.path = pathVertices ⟨1⟩ r.edges := by
  obtain ⟨hok, -⟩ := shortest_path_correct c6Graph ⟨1⟩ ⟨4⟩ (by decide) (by decide)
  have h := hok _ rfl
  exact ⟨_, rfl, h.1, h.2.1, h.2.2.1⟩

/-- The diamond graph for the tie-breaking claim: vertex 1 reaches vertex 4
through vertex 2 (edges 10, 12) or through vertex 3 (edges 11, 13); both
alternatives cost 2. -/
def c5Graph : GraphState :=
  ⟨[Vertex.new ⟨1⟩ "Node" Json.null, Vertex.new ⟨2⟩ "Node" Json.null,
    Vertex.new ⟨3⟩ "Node" Json.null, Vertex.new ⟨4⟩ "Node" Json.null],
   [Edge.new ⟨10⟩ ⟨1⟩ ⟨2⟩ "LINK" Json.null,
    Edge.new ⟨11⟩ ⟨1⟩ ⟨3⟩ "LINK" Json.null,
    Edge.new ⟨12⟩ ⟨2⟩ ⟨4⟩ "LINK" Json.null,
    Edge.new ⟨13⟩ ⟨3⟩ ⟨4⟩ "LINK" Json.null]⟩

/-- Counterexample to C5: among the equal-cost heap candidates for vertices
2 and 3, the pop returns vertex 3 — the LARGER raw identifier — and
accordingly the equal-cost diamond from vertex 1 to vertex 4 resolves to the
route through vertex 3, not the raw-identifier-ascending route through
vertex 2. -/
theorem dijkstra_tie_break_cex :
    popMax [⟨⟨2⟩, 1⟩, ⟨⟨3⟩, 1⟩] = some (⟨⟨3⟩, 1⟩, [⟨⟨2⟩, 1⟩]) ∧
    (∃ r, shortest_path c5Graph ⟨1⟩ ⟨4⟩ = Except.ok r ∧
      r.path = [⟨1⟩, ⟨3⟩, ⟨4⟩] ∧ r.path ≠ [⟨1⟩, ⟨2⟩, ⟨4⟩]) := by
  refine ⟨rfl, ⟨_, rfl, rfl, ?_⟩⟩
  decide

/-- C5 (amended): in the shortest-path traversal, whenever two frontier
candidates in the heap have equal cost, the candidate with the LARGER raw
identifier is popped and expanded first — the popped node has minimal cost,
and every remaining equal-cost node has a raw identifier at most the popped
one. -/
theorem dijkstra_tie_break (h : List DijkstraNode) (nd : DijkstraNode)
    (rest : List DijkstraNode) (hp : popMax h = some (nd, rest)) :
    ∀ x ∈ rest, nd.cost ≤ x.cost ∧
      (x.cost = nd.cost → x.vertex.raw ≤ nd.vertex.raw) :=
  popMax_maximal h nd rest hp

/-- Witness for the amended C5 on the equal-cost candidates for vertices 2
and 3: vertex 3 is popped, and the remaining candidate for vertex 2 has an
equal cost and a smaller raw identifier. -/
theorem dijkstra_tie_break_witness :
    popMax [⟨⟨2⟩, 1⟩, ⟨⟨3⟩, 1⟩] = some (⟨⟨3⟩, 1⟩, [⟨⟨2⟩, 1⟩]) ∧
      ((⟨⟨3⟩, 1⟩ : DijkstraNode).cost ≤ (⟨⟨2⟩, 1⟩ : DijkstraNode).cost ∧
        ((⟨⟨2⟩, 1⟩ : DijkstraNode).cost = (⟨⟨3⟩, 1⟩ : DijkstraNode).cost →
          (⟨⟨2⟩, 1⟩ : DijkstraNode).vertex.raw ≤
            (⟨⟨3⟩, 1⟩ : DijkstraNode).vertex.raw)) :=
  ⟨by rfl, dijkstra_tie_break [⟨⟨2⟩, 1⟩, ⟨⟨3⟩, 1⟩] ⟨⟨3⟩, 1⟩ [⟨⟨2⟩, 1⟩]
    (by rfl) ⟨⟨2⟩, 1⟩ (by simp)⟩

end GraphDB
